import Mathlib

/-!
Verification of the MHA-ISPOC vector-store synchronization core.

This file gives a shallow embedding, in Lean 4, of the synchronization and
reconciliation core of the repository:

* scripts/reconcile_vector_store.py : plan_reconciliation, with_retries,
  backoff_sleep, VectorFileRecord, ReconcilePlan;
* scripts/vector_store_upsert.py : determine_actions, DocumentWorkItem,
  normalize_combined_index_payload, build_index_work_item, with_retries;
* client-pipeline/scripts/utils/state.py : canonicalize_json,
  compute_content_hash_from_data, the volatile-field stripper, VectorState
  (save and load of the ledger file).

JSON-like Python values are modelled by the mutual inductive type Json below.
Python dicts are modelled as association lists preserving insertion order
(Python dicts iterate in insertion order); JSON numbers are modelled as
integers (the repository never stores floats in the ledger or payloads
covered by the claims).  The SHA-256 digest applied by
compute_content_hash_from_data is modelled as an arbitrary function of the
canonical serialization, so every hash-equality theorem below is proved for
every digest function.
-/

set_option autoImplicit false

mutual

/-- JSON-like Python value: None, bool, int, str, list, dict.  The three
types are mutually inductive so that all functions on them can be defined by
structural recursion (and therefore reduce definitionally). -/
inductive Json : Type where
  | null : Json
  | bool : Bool → Json
  | num : Int → Json
  | str : String → Json
  | arr : JsonList → Json
  | obj : JsonObj → Json

/-- A Python list of JSON values. -/
inductive JsonList : Type where
  | nil : JsonList
  | cons : Json → JsonList → JsonList

/-- A Python dict with string keys, kept in insertion order. -/
inductive JsonObj : Type where
  | nil : JsonObj
  | cons : String → Json → JsonObj → JsonObj

end

/-- Python dict lookup, dict.get(key): first binding of the key (real dicts
never hold a key twice). -/
def JsonObj.get : JsonObj → String → Option Json
  | .nil, _ => none
  | .cons k v tl, key => if k = key then some v else tl.get key

/-- Conversion of a JsonList to a Lean list. -/
def JsonList.toList : JsonList → List Json
  | .nil => []
  | .cons x xs => x :: xs.toList

/-- Conversion of a Lean list to a JsonList. -/
def JsonList.ofList : List Json → JsonList
  | [] => .nil
  | x :: xs => .cons x (JsonList.ofList xs)

/-- Conversion of a JsonObj to a Lean association list. -/
def JsonObj.toList : JsonObj → List (String × Json)
  | .nil => []
  | .cons k v tl => (k, v) :: tl.toList

/-- Conversion of a Lean association list to a JsonObj. -/
def JsonObj.ofList : List (String × Json) → JsonObj
  | [] => .nil
  | (k, v) :: tl => .cons k v (JsonObj.ofList tl)

/-!
## Reconciliation planner (scripts/reconcile_vector_store.py)
-/
/-- VectorFileRecord from reconcile_vector_store.py.  The field file_id is a
Python value (annotated str in the source but dynamically typed: the orphan
branch of plan_reconciliation stores entry.get("fileId", "") there, which is
whatever the ledger holds); external_id is the optional external id string
from the remote metadata; metadata is the raw metadata dict. -/
structure VectorFileRecord where
  file_id : Json
  external_id : Option String
  metadata : JsonObj := .nil
  reason : Option String := none
  remove_state : Bool := false

/-- ReconcilePlan from reconcile_vector_store.py. -/
structure ReconcilePlan where
  deletions : List VectorFileRecord
  state_only_removals : List String

/-- Python truthiness of an optional external id: None and the empty string
are falsy (the source tests `if not rec.external_id`). -/
def truthyId : Option String → Bool
  | none => false
  | some s => !(s == "")

/-- The duplicate-tracking loop of plan_reconciliation: walk the remote
records in listing order with the `seen` dict (external id to file id); a
record whose truthy external id was already seen becomes a deletion with
reason "duplicate_external_id" and remove_state False; otherwise the id is
recorded in `seen`. -/
def dup_scan (seen : List (String × Json)) : List VectorFileRecord → List VectorFileRecord
  | [] => []
  | rec :: rest =>
    if truthyId rec.external_id = false then dup_scan seen rest
    else
      let eid := rec.external_id.getD ""
      if eid ∈ seen.map Prod.fst then
        { file_id := rec.file_id, external_id := rec.external_id, metadata := .nil,
          reason := some "duplicate_external_id", remove_state := false } :: dup_scan seen rest
      else dup_scan ((eid, rec.file_id) :: seen) rest

/-- The orphan loop of plan_reconciliation: every ledger key absent from
allowed_files becomes a deletion with file_id entry.get("fileId", ""),
reason "not_in_combined_index" and remove_state True.  Ledger entries are
dicts (the data-model invariant of the state file). -/
def stale_scan (allowed_files : List String) : List (String × JsonObj) → List VectorFileRecord
  | [] => []
  | (eid, entry) :: rest =>
    if eid ∈ allowed_files then stale_scan allowed_files rest
    else
      { file_id := (entry.get "fileId").getD (Json.str ""), external_id := some eid,
        metadata := .nil, reason := some "not_in_combined_index", remove_state := true } ::
        stale_scan allowed_files rest

/-- plan_reconciliation from reconcile_vector_store.py: the deletions list is
filled first by the duplicate loop over the remote records, then by the
orphan loop over the ledger entries; state_only_removals is initialized to
the empty list and never appended to. -/
def plan_reconciliation (records : List VectorFileRecord) (allowed_files : List String)
    (state_docs : List (String × JsonObj)) : ReconcilePlan :=
  { deletions := dup_scan [] records ++ stale_scan allowed_files state_docs,
    state_only_removals := [] }

/-!
## Retrying executor (with_retries in both scripts)
-/
/-- backoff_sleep from both scripts: sleep base_delay * 2 ^ attempt.  Delays
are modelled as rationals. -/
def backoff_sleep (attempt : Nat) (base_delay : ℚ) : ℚ :=
  base_delay * 2 ^ attempt

/-- Trace of one run of with_retries: the returned-or-raised outcome, the
number of times the operation was invoked, and the list of sleep durations
in order. -/
structure RetryTrace (ε α : Type) where
  result : Except ε α
  calls : Nat
  sleeps : List ℚ

/-- The loop body of with_retries.  The operation is modelled as a function
from the attempt index to the outcome of that attempt.  At attempt index
`attempt` with `remaining` further attempts allowed: call the operation;
return on success; on failure raise if no attempts remain, otherwise sleep
backoff_sleep (attempt + 1) base_delay (the source calls
backoff_sleep(attempt + 1, base_delay=base_delay)) and continue. -/
def with_retriesGo {ε α : Type} (op : Nat → Except ε α) (base_delay : ℚ) :
    Nat → Nat → RetryTrace ε α
  | attempt, remaining =>
    match op attempt with
    | Except.ok a => { result := Except.ok a, calls := 1, sleeps := [] }
    | Except.error e =>
      match remaining with
      | 0 => { result := Except.error e, calls := 1, sleeps := [] }
      | r + 1 =>
        let rest := with_retriesGo op base_delay (attempt + 1) r
        { result := rest.result, calls := rest.calls + 1,
          sleeps := backoff_sleep (attempt + 1) base_delay :: rest.sleeps }

/-- with_retries from vector_store_upsert.py and reconcile_vector_store.py:
`for attempt in range(retries + 1)`, so the first call happens at attempt 0
with `retries` further attempts allowed. -/
def with_retries {ε α : Type} (op : Nat → Except ε α) (retries : Nat) (base_delay : ℚ) :
    RetryTrace ε α :=
  with_retriesGo op base_delay 0 retries

/-!
## Action planner (scripts/vector_store_upsert.py)
-/
/-- DocumentWorkItem from vector_store_upsert.py.  state_record is the
ledger entry found for the external id, or none when state.get returned
None. -/
structure DocumentWorkItem where
  external_id : String
  source_path : String
  document_type : String
  index_record : JsonObj
  json_payload : Json
  content_hash : String
  state_record : Option JsonObj

/-- The three buckets returned by determine_actions. -/
structure UpsertActions where
  create : List DocumentWorkItem
  update : List DocumentWorkItem
  skip : List DocumentWorkItem

/-- Python truthiness of the optional ledger entry: None and the empty dict
are falsy (the source tests `if not item.state_record`). -/
def entryTruthy : Option JsonObj → Bool
  | none => false
  | some .nil => false
  | some (.cons _ _ _) => true

/-- Python equality of an arbitrary value against a str: only a str of equal
contents compares equal (the source compares entry.get("contentHash"), which
may be None or any stored value, against the freshly computed hash string
with `!=`). -/
def isStrVal : Option Json → String → Bool
  | some (Json.str s), t => s == t
  | _, _ => false

/-- determine_actions from vector_store_upsert.py: items whose state_record
is falsy go to create; items whose entry holds a contentHash different from
the fresh content_hash go to update; the rest go to skip.  Each bucket keeps
the input order. -/
def determine_actions : List DocumentWorkItem → UpsertActions
  | [] => { create := [], update := [], skip := [] }
  | item :: rest =>
    let acc := determine_actions rest
    match item.state_record with
    | none => { acc with create := item :: acc.create }
    | some JsonObj.nil => { acc with create := item :: acc.create }
    | some (JsonObj.cons k v tl) =>
      if isStrVal ((JsonObj.cons k v tl).get "contentHash") item.content_hash = false then
        { acc with update := item :: acc.update }
      else { acc with skip := item :: acc.skip }

/-!
## Spec-side characterizations of the reconciliation planner

These definitions follow the wording of the specification (section 4.5) and
are compared to plan_reconciliation by refinement theorems below.
-/
/-- The deletion record built for a duplicate remote file, per the spec:
reason duplicate_external_id, removeFromLedger false. -/
def mkDupDeletion (r : VectorFileRecord) : VectorFileRecord :=
  { file_id := r.file_id, external_id := r.external_id, metadata := .nil,
    reason := some "duplicate_external_id", remove_state := false }

/-- Whether some record among the previously listed ones carries the given
truthy external id. -/
def seenIn (pre : List VectorFileRecord) (eid : String) : Bool :=
  pre.any fun r => truthyId r.external_id && (r.external_id.getD "" == eid)

/-- Spec wording of the duplicate-driven strategy: scanning remote records
in listing order, a record is scheduled exactly when its truthy external id
already occurred on an earlier record (the first holder is kept). -/
def spec_dup_go (pre : List VectorFileRecord) : List VectorFileRecord → List VectorFileRecord
  | [] => []
  | r :: rest =>
    (if truthyId r.external_id && seenIn pre (r.external_id.getD "") then [mkDupDeletion r]
     else []) ++ spec_dup_go (pre ++ [r]) rest

/-- Spec wording of the duplicate-driven strategy, starting with no earlier
records. -/
def spec_duplicate_deletions (records : List VectorFileRecord) : List VectorFileRecord :=
  spec_dup_go [] records

/-- Amended spec wording of the ledger-driven strategy: every ledger key
absent from the allow-list is scheduled, carrying the remote file id stored
in its entry (the empty string when the entry holds none), with reason
not_in_combined_index and removeFromLedger true. -/
def spec_stale_deletions (allowed : List String) (docs : List (String × JsonObj)) :
    List VectorFileRecord :=
  docs.filterMap fun kv =>
    if kv.1 ∈ allowed then none
    else some { file_id := (kv.2.get "fileId").getD (Json.str ""), external_id := some kv.1,
                metadata := .nil, reason := some "not_in_combined_index", remove_state := true }

/-- The ledger-driven rule exactly as claim C2 states it: an entry is
scheduled only when it carries a "fileId" field. -/
def claimed_stale_deletions (allowed : List String) (docs : List (String × JsonObj)) :
    List VectorFileRecord :=
  docs.filterMap fun kv =>
    if kv.1 ∈ allowed then none
    else match kv.2.get "fileId" with
      | some fid => some { file_id := fid, external_id := some kv.1, metadata := .nil,
                           reason := some "not_in_combined_index", remove_state := true }
      | none => none

/-- Concrete input for the refutation of claim C1 as stated: two remote
records share the allow-listed external id keep.json. -/
def c1Records : List VectorFileRecord :=
  [ { file_id := Json.str "f-keep", external_id := some "keep.json" },
    { file_id := Json.str "f-dupe", external_id := some "keep.json" } ]

/-- Concrete ledger for the refutation of claim C2 as stated: one stale
entry that carries no remote file id. -/
def c2Docs : List (String × JsonObj) := [("x.json", JsonObj.nil)]

/-!
## Characterization of determine_actions
-/
/-- Whether the stored contentHash of the ledger entry of the item equals
the freshly computed hash, in the Python != sense used by the source. -/
def storedHashMatches (i : DocumentWorkItem) : Bool :=
  isStrVal ((i.state_record.getD JsonObj.nil).get "contentHash") i.content_hash

/-- A work item whose ledger entry is the empty dict, as produced for
example by set_metadata with no metadata fields on a fresh external id. -/
def emptyEntryItem : DocumentWorkItem :=
  { external_id := "doc.json", source_path := "VECTOR_JSON/doc.json", document_type := "Policy",
    index_record := .nil, json_payload := Json.null, content_hash := "h123",
    state_record := some JsonObj.nil }

/-- Python dict assignment d[k] = v on an association list: replace the
value in place when the key exists, else append the new binding. -/
def JsonObj.setKey : JsonObj → String → Json → JsonObj
  | .nil, k, v => .cons k v .nil
  | .cons k0 v0 tl, k, v =>
    if k0 = k then .cons k0 v tl else .cons k0 v0 (tl.setKey k v)

/-- Python dict.update: apply every binding of the second dict to the
first, in order. -/
def JsonObj.updateWith : JsonObj → JsonObj → JsonObj
  | base, .nil => base
  | base, .cons k v tl => (base.setKey k v).updateWith tl

/-- Lookup of a ledger entry in the docs mapping (dict.get). -/
def lookupEntry : List (String × JsonObj) → String → Option JsonObj
  | [], _ => none
  | (k, e) :: tl, key => if k = key then some e else lookupEntry tl key

/-- Python dict assignment on the docs mapping. -/
def setEntry : List (String × JsonObj) → String → JsonObj → List (String × JsonObj)
  | [], k, e => [(k, e)]
  | (k0, e0) :: tl, k, e =>
    if k0 = k then (k0, e) :: tl else (k0, e0) :: setEntry tl k e

/-- VectorState.set_metadata from state.py: entry = dict(docs.get(eid, {}));
entry.update(metadata); docs[eid] = entry. -/
def set_metadata (docs : List (String × JsonObj)) (external_id : String)
    (metadata : JsonObj) : List (String × JsonObj) :=
  setEntry docs external_id (((lookupEntry docs external_id).getD JsonObj.nil).updateWith metadata)

/-- A work item with no ledger entry at all. -/
def freshItem : DocumentWorkItem :=
  { external_id := "new.json", source_path := "VECTOR_JSON/new.json", document_type := "Policy",
    index_record := .nil, json_payload := Json.null, content_hash := "h456",
    state_record := none }

/-- A work item whose ledger entry records exactly its fresh content hash,
the state after a completed sync. -/
def syncedItem : DocumentWorkItem :=
  { external_id := "done.json", source_path := "VECTOR_JSON/done.json", document_type := "Policy",
    index_record := .nil, json_payload := Json.null, content_hash := "abc",
    state_record := some (JsonObj.cons "fileId" (Json.str "f1")
      (JsonObj.cons "contentHash" (Json.str "abc") JsonObj.nil)) }

/-- A concrete ledger with one stale entry carrying a remote file id. -/
def c1wDocs : List (String × JsonObj) :=
  [("old.json", JsonObj.cons "fileId" (Json.str "f1") JsonObj.nil)]

/-- The stale deletion scheduled for the c1wDocs entry. -/
def c1wDel : VectorFileRecord :=
  { file_id := Json.str "f1", external_id := some "old.json", metadata := .nil,
    reason := some "not_in_combined_index", remove_state := true }

/-- An operation that fails on every attempt. -/
def alwaysFails : Nat → Except Nat Nat := fun _ => Except.error 0

/-!
## Canonical serialization (json.dumps with sort_keys=True)

Python compares strings by code points; charsLe below is that comparison,
written so that it reduces in the kernel.  sortByKey models the stable sort
python uses for dict items (sort_keys=True) and for sorted(key=...).
-/
/-- Lexicographic less-or-equal on char lists by code point. -/
def charsLe : List Char → List Char → Bool
  | [], _ => true
  | _ :: _, [] => false
  | a :: as, b :: bs =>
    if a.toNat < b.toNat then true
    else if b.toNat < a.toNat then false
    else charsLe as bs

/-- Python string less-or-equal (code-point lexicographic). -/
def strLe (a b : String) : Bool := charsLe a.data b.data

/-- Ordering of key-value pairs by their string key. -/
def keyLe {γ : Type} (a b : String × γ) : Prop := strLe a.1 b.1 = true

instance {γ : Type} : DecidableRel (keyLe (γ := γ)) :=
  fun _ _ => inferInstanceAs (Decidable (_ = true))

/-- The stable sort by string key used when serializing dict items with
sort_keys=True and in sorted(key=...). -/
def sortByKey {γ : Type} (l : List (String × γ)) : List (String × γ) :=
  List.insertionSort keyLe l

/-- Lowercase hex digit (json.dumps escapes control characters as \u00xx
with lowercase hex). -/
def hexDigit : Nat → Char
  | 0 => '0' | 1 => '1' | 2 => '2' | 3 => '3' | 4 => '4'
  | 5 => '5' | 6 => '6' | 7 => '7' | 8 => '8' | 9 => '9'
  | 10 => 'a' | 11 => 'b' | 12 => 'c' | 13 => 'd' | 14 => 'e'
  | _ => 'f'

/-- The escaping json.dumps applies to one character with ensure_ascii set
to False: backslash, double quote, the five short control escapes, and a
four-digit unicode escape for the remaining control characters; any other
character is emitted verbatim. -/
def escapeChar (c : Char) : List Char :=
  if c = '"' then ['\\', '"']
  else if c = '\\' then ['\\', '\\']
  else if c = '\x08' then ['\\', 'b']
  else if c = '\x0c' then ['\\', 'f']
  else if c = '\n' then ['\\', 'n']
  else if c = '\r' then ['\\', 'r']
  else if c = '\t' then ['\\', 't']
  else if c.toNat < 0x20 then
    ['\\', 'u', '0', '0', hexDigit (c.toNat / 16), hexDigit (c.toNat % 16)]
  else [c]

/-- Escape a whole string. -/
def escapeChars : List Char → List Char
  | [] => []
  | c :: cs => escapeChar c ++ escapeChars cs

/-- The decimal digit character for one digit value. -/
def digitChar : Nat → Char
  | 0 => '0' | 1 => '1' | 2 => '2' | 3 => '3' | 4 => '4'
  | 5 => '5' | 6 => '6' | 7 => '7' | 8 => '8' | _ => '9'

/-- Decimal digits of a natural number, most significant first, written
with explicit fuel so that it reduces in the kernel (the fuel n + 1 always
suffices since n / 10 < n for n at least 10). -/
def natDigitsGo : Nat → Nat → List Char → List Char
  | 0, _, acc => acc
  | fuel + 1, n, acc =>
    if n < 10 then digitChar n :: acc
    else natDigitsGo fuel (n / 10) (digitChar (n % 10) :: acc)

/-- Decimal representation of a natural number. -/
def natRepr (n : Nat) : List Char := natDigitsGo (n + 1) n []

/-- Decimal representation of an integer, as json.dumps emits it. -/
def intRepr : Int → List Char
  | Int.ofNat n => natRepr n
  | Int.negSucc n => '-' :: natRepr (n + 1)

/-- n spaces. -/
def spaces : Nat → List Char
  | 0 => []
  | n + 1 => ' ' :: spaces n

/-- Join serialized items with a separator. -/
def joinSep (sep : List Char) : List (List Char) → List Char
  | [] => []
  | x :: xs =>
    match xs with
    | [] => x
    | _ :: _ => x ++ sep ++ joinSep sep xs

/-- The item separator of json.dumps: a bare comma in compact mode
(separators=(",", ":")), else a comma, a newline and the indentation of the
next nesting level. -/
def itemSep (indent : Option Nat) (level : Nat) : List Char :=
  match indent with
  | none => [',']
  | some n => ',' :: '\n' :: spaces (n * (level + 1))

/-- Wrap serialized array items in brackets, laid out as json.dumps does
for the given indent option at the given nesting level. -/
def wrapList (openC closeC : Char) (indent : Option Nat) (level : Nat)
    (items : List (List Char)) : List Char :=
  match indent with
  | none => openC :: joinSep (itemSep none level) items ++ [closeC]
  | some n =>
    openC :: '\n' :: spaces (n * (level + 1)) ++
      joinSep (itemSep (some n) level) items ++
      '\n' :: spaces (n * level) ++ [closeC]

/-- One serialized dict entry: quoted escaped key, colon (followed by a
space when an indent is given, matching the default separators that
json.dumps uses with indent), serialized value. -/
def entryChars (indent : Option Nat) (kv : String × List Char) : List Char :=
  '"' :: escapeChars kv.1.data ++ '"' :: ':' ::
    (match indent with | none => [] | some _ => [' ']) ++ kv.2

mutual

/-- json.dumps(value, sort_keys=True, ensure_ascii=False) with either
separators=(",", ":") (indent none — the canonicalize_json call) or
indent=n (the _atomic_write_json call): dict items are serialized and then
emitted sorted by key. -/
def Json.dump (indent : Option Nat) (level : Nat) : Json → List Char
  | .null => "null".data
  | .bool true => "true".data
  | .bool false => "false".data
  | .num n => intRepr n
  | .str s => '"' :: escapeChars s.data ++ ['"']
  | .arr .nil => ['[', ']']
  | .arr (.cons x xs) =>
    wrapList '[' ']' indent level
      (JsonList.dumpItems indent (level + 1) (JsonList.cons x xs))
  | .obj .nil => ['\x7b', '\x7d']
  | .obj (.cons k v tl) =>
    wrapList '\x7b' '\x7d' indent level
      (((sortByKey (JsonObj.dumpEntries indent (level + 1) (JsonObj.cons k v tl))).map
        (entryChars indent)))

/-- Serialize every array element. -/
def JsonList.dumpItems (indent : Option Nat) (level : Nat) : JsonList → List (List Char)
  | .nil => []
  | .cons x xs => Json.dump indent level x :: JsonList.dumpItems indent level xs

/-- Serialize every dict value, keeping the keys for sorting. -/
def JsonObj.dumpEntries (indent : Option Nat) (level : Nat) :
    JsonObj → List (String × List Char)
  | .nil => []
  | .cons k v tl => (k, Json.dump indent level v) :: JsonObj.dumpEntries indent level tl

end

/-!
## Canonical hashing (client-pipeline/scripts/utils/state.py)
-/
/-- The default volatile field set of state.py. -/
def DEFAULT_VOLATILE_FIELDS : List String := ["extracted_date"]

mutual

/-- The recursive volatile-key stripper of state.py: remove every binding
of a volatile key from dicts at every depth, recurse into lists, leave
scalars untouched. -/
def Json.strip_volatile_fields (vol : List String) : Json → Json
  | .null => .null
  | .bool b => .bool b
  | .num n => .num n
  | .str s => .str s
  | .arr xs => .arr (JsonList.strip_volatile_fields vol xs)
  | .obj kvs => .obj (JsonObj.strip_volatile_fields vol kvs)

/-- Strip volatile fields in every element of a list. -/
def JsonList.strip_volatile_fields (vol : List String) : JsonList → JsonList
  | .nil => .nil
  | .cons x xs =>
    .cons (Json.strip_volatile_fields vol x) (JsonList.strip_volatile_fields vol xs)

/-- Strip volatile bindings from a dict and recurse into the kept values. -/
def JsonObj.strip_volatile_fields (vol : List String) : JsonObj → JsonObj
  | .nil => .nil
  | .cons k v tl =>
    if k ∈ vol then JsonObj.strip_volatile_fields vol tl
    else .cons k (Json.strip_volatile_fields vol v) (JsonObj.strip_volatile_fields vol tl)

end

/-- canonicalize_json from state.py: strip the volatile fields (the default
set when none are given) and serialize with sorted keys, no insignificant
whitespace (separators=(",", ":")) and ensure_ascii=False. -/
def canonicalize_json (data : Json) (volatile_fields : Option (List String) := none) : String :=
  String.mk (Json.dump none 0
    (Json.strip_volatile_fields (volatile_fields.getD DEFAULT_VOLATILE_FIELDS) data))

/-- compute_content_hash_from_data from state.py.  The SHA-256 hex digest is
modelled as an arbitrary digest function of the canonical serialization;
every equality proved below therefore holds for the real digest as well. -/
def compute_content_hash_from_data (digest : String → String) (data : Json)
    (volatile_fields : Option (List String) := none) : String :=
  digest (canonicalize_json data volatile_fields)

/-!
## Key-order normal form

deepSort recursively sorts every dict of a JSON value by key; two values
differ only in dict key order (at any depth) exactly when their deepSort
normal forms coincide.  The serializer is proved insensitive to deepSort,
which yields the key-order-invariance half of the canonical-hashing claims.
-/
mutual

/-- Recursively sort every dict by key. -/
def Json.deepSort : Json → Json
  | .null => .null
  | .bool b => .bool b
  | .num n => .num n
  | .str s => .str s
  | .arr xs => .arr (JsonList.deepSortList xs)
  | .obj kvs => .obj (JsonObj.ofList (sortByKey (JsonObj.deepSortVals kvs).toList))

/-- deepSort every element. -/
def JsonList.deepSortList : JsonList → JsonList
  | .nil => .nil
  | .cons x xs => .cons (Json.deepSort x) (JsonList.deepSortList xs)

/-- deepSort every value, keeping the binding order. -/
def JsonObj.deepSortVals : JsonObj → JsonObj
  | .nil => .nil
  | .cons k v tl => .cons k (Json.deepSort v) (JsonObj.deepSortVals tl)

end

/-- A payload with a volatile field and unsorted keys. -/
def c5PayloadA : Json :=
  Json.obj (JsonObj.cons "b" (Json.num 1)
    (JsonObj.cons "a" (Json.num 2)
      (JsonObj.cons "extracted_date" (Json.str "2024-01-01") JsonObj.nil)))

/-- The same payload with another volatile value and the keys reordered. -/
def c5PayloadB : Json :=
  Json.obj (JsonObj.cons "a" (Json.num 2)
    (JsonObj.cons "extracted_date" (Json.str "2024-05-05")
      (JsonObj.cons "b" (Json.num 1) JsonObj.nil)))

/-!
## The combined-index work item (scripts/vector_store_upsert.py)
-/
/-- Python truthiness of a JSON value. -/
def Json.truthy : Json → Bool
  | .null => false
  | .bool b => b
  | .num n => !(n == 0)
  | .str s => !(s == "")
  | .arr .nil => false
  | .arr (.cons _ _) => true
  | .obj .nil => false
  | .obj (.cons _ _ _) => true

/-- The sort key of one combined-index document entry, modelling the lambda
`(d or ...).get("File") or ...` of normalize_combined_index_payload (with the
empty-string default): none models the cases in which Python raises — a
truthy document that is not a dict (AttributeError on .get) or a truthy File
value that is not a string (mixed-type comparison in sorted). -/
def docSortKey (d : Json) : Option String :=
  if Json.truthy d = false then some ""
  else match d with
    | Json.obj kvs =>
      match kvs.get "File" with
      | none => some ""
      | some v =>
        if Json.truthy v = false then some ""
        else match v with
          | Json.str s => some s
          | _ => none
    | _ => none

/-- The sort keys of all documents: none as soon as one key computation
would raise in Python. -/
def docsWithKeys : List Json → Option (List (String × Json))
  | [] => some []
  | d :: ds =>
    match docSortKey d, docsWithKeys ds with
    | some k, some rest => some ((k, d) :: rest)
    | _, _ => none

/-- normalize_combined_index_payload from vector_store_upsert.py: a shallow
copy of the payload whose "MHA Documents" list is stably sorted by the File
sort key; none models the ValueError raised when the payload has no
"MHA Documents" list and the sort failures modelled by docsWithKeys. -/
def normalize_combined_index_payload (payload : JsonObj) : Option JsonObj :=
  match payload.get "MHA Documents" with
  | some (Json.arr docs) =>
    match docsWithKeys docs.toList with
    | some keyed =>
      some (payload.setKey "MHA Documents"
        (Json.arr (JsonList.ofList ((sortByKey keyed).map Prod.snd))))
    | none => none
  | _ => none

/-- build_index_work_item from vector_store_upsert.py: the synthetic work
item for the combined index document, whose content hash is computed on the
normalized payload (sorted document list, default volatile fields) while
json_payload keeps the on-disk order.  The file system read is modelled by
passing the parsed payload; the state lookup matches build_work_items. -/
def build_index_work_item (digest : String → String) (payload : JsonObj)
    (combined_index_name : String) (state_docs : List (String × JsonObj)) :
    Option DocumentWorkItem :=
  match normalize_combined_index_payload payload with
  | none => none
  | some normalized =>
    some { external_id := combined_index_name,
           source_path := combined_index_name,
           document_type := "Index",
           index_record := JsonObj.cons "Document" (Json.str "MHA Documents Combined Index")
             (JsonObj.cons "Document Type" (Json.str "Index") JsonObj.nil),
           json_payload := Json.obj payload,
           content_hash := compute_content_hash_from_data digest (Json.obj normalized) none,
           state_record := lookupEntry state_docs combined_index_name }

/-- A combined-index document named X.json, content 1. -/
def c6DocA1 : Json :=
  Json.obj (JsonObj.cons "File" (Json.str "X.json")
    (JsonObj.cons "Document" (Json.str "1") JsonObj.nil))

/-- A second, different document with the same filename X.json. -/
def c6DocA2 : Json :=
  Json.obj (JsonObj.cons "File" (Json.str "X.json")
    (JsonObj.cons "Document" (Json.str "2") JsonObj.nil))

/-- Combined index listing the two like-named documents in one order. -/
def c6Payload1 : JsonObj :=
  JsonObj.cons "MHA Documents"
    (Json.arr (JsonList.cons c6DocA1 (JsonList.cons c6DocA2 JsonList.nil))) JsonObj.nil

/-- The same combined index with the document list reversed. -/
def c6Payload2 : JsonObj :=
  JsonObj.cons "MHA Documents"
    (Json.arr (JsonList.cons c6DocA2 (JsonList.cons c6DocA1 JsonList.nil))) JsonObj.nil

/-- A combined-index document named A.json. -/
def c6wDocA : Json :=
  Json.obj (JsonObj.cons "File" (Json.str "A.json")
    (JsonObj.cons "Document Type" (Json.str "Policy") JsonObj.nil))

/-- A combined-index document named B.json. -/
def c6wDocB : Json :=
  Json.obj (JsonObj.cons "File" (Json.str "B.json")
    (JsonObj.cons "Document Type" (Json.str "Policy") JsonObj.nil))

/-- Combined index listing A.json then B.json. -/
def c6wPayload : JsonObj :=
  JsonObj.cons "MHA Documents"
    (Json.arr (JsonList.ofList [c6wDocA, c6wDocB])) JsonObj.nil

/-!
## JSON parsing (json.load) and the ledger round trip
-/
/-- Whether a character is JSON whitespace (the WHITESPACE set of the
Python json module). -/
def isWs (c : Char) : Bool := c = ' ' || c = '\t' || c = '\n' || c = '\r'

/-- Drop leading whitespace. -/
def skipWs : List Char → List Char
  | [] => []
  | c :: cs => if isWs c then skipWs cs else c :: cs

/-- Whether a character is a decimal digit. -/
def isDigitChar (c : Char) : Bool := 48 ≤ c.toNat && c.toNat ≤ 57

/-- Value of a hex digit character. -/
def hexVal (c : Char) : Option Nat :=
  if 48 ≤ c.toNat && c.toNat ≤ 57 then some (c.toNat - 48)
  else if 97 ≤ c.toNat && c.toNat ≤ 102 then some (c.toNat - 87)
  else if 65 ≤ c.toNat && c.toNat ≤ 70 then some (c.toNat - 55)
  else none

/-- Parse the body of a JSON string after the opening quote: returns the
decoded characters and the input after the closing quote.  Escapes are the
JSON ones; \uXXXX is accepted for every valid unicode scalar (the model
does not represent lone surrogates); raw control characters are rejected as
in the strict mode of json.load. -/
def parseStringBody : List Char → Option (List Char × List Char)
  | [] => none
  | c :: cs =>
    if c = '"' then some ([], cs)
    else if c = '\\' then
      match cs with
      | [] => none
      | e :: cs' =>
        if e = 'u' then
          match cs' with
          | h1 :: h2 :: h3 :: h4 :: cs'' =>
            match hexVal h1, hexVal h2, hexVal h3, hexVal h4 with
            | some d1, some d2, some d3, some d4 =>
              let val := ((d1 * 16 + d2) * 16 + d3) * 16 + d4
              if val < 0xd800 then
                match parseStringBody cs'' with
                | some (s, r) => some (Char.ofNat val :: s, r)
                | none => none
              else none
            | _, _, _, _ => none
          | _ => none
        else
          match
            (if e = '"' then some '"'
             else if e = '\\' then some '\\'
             else if e = '/' then some '/'
             else if e = 'b' then some '\x08'
             else if e = 'f' then some '\x0c'
             else if e = 'n' then some '\n'
             else if e = 'r' then some '\r'
             else if e = 't' then some '\t'
             else none) with
          | some d =>
            match parseStringBody cs' with
            | some (s, r) => some (d :: s, r)
            | none => none
          | none => none
    else if c.toNat < 0x20 then none
    else
      match parseStringBody cs with
      | some (s, r) => some (c :: s, r)
      | none => none

/-- Accumulate decimal digits. -/
def parseNatDigits : List Char → Nat → Nat × List Char
  | [], acc => (acc, [])
  | c :: cs, acc =>
    if isDigitChar c then parseNatDigits cs (acc * 10 + (c.toNat - 48))
    else (acc, c :: cs)

/-- Whether the remaining input would continue a JSON number as a float
(the model holds integers only, so such numbers fail to parse). -/
def isFloatCont : List Char → Bool
  | [] => false
  | c :: _ => c = '.' || c = 'e' || c = 'E'

/-- Parse a JSON integer (optional minus sign and decimal digits); floats
are outside the model and yield none. -/
def parseInt : List Char → Option (Int × List Char)
  | [] => none
  | c :: cs =>
    if c = '-' then
      match cs with
      | [] => none
      | d :: _ =>
        if isDigitChar d then
          match parseNatDigits cs 0 with
          | (n, rest) => if isFloatCont rest then none else some (-(n : Int), rest)
        else none
    else if isDigitChar c then
      match parseNatDigits (c :: cs) 0 with
      | (n, rest) => if isFloatCont rest then none else some ((n : Int), rest)
    else none

/-- Build a Python dict from parsed key-value pairs in order: repeated keys
keep the first position and the last value, as dict construction does. -/
def objFromPairs (l : List (String × Json)) : JsonObj :=
  l.foldl (fun o kv => o.setKey kv.1 kv.2) JsonObj.nil

mutual

/-- Recursive-descent JSON value parser (json.load), with explicit fuel so
that it reduces in the kernel; loads passes fuel exceeding every possible
nesting depth of its input. -/
def parseValue : Nat → List Char → Option (Json × List Char)
  | 0, _ => none
  | fuel + 1, input =>
    match skipWs input with
    | [] => none
    | c :: cs =>
      if c = 'n' then
        match cs with
        | 'u' :: 'l' :: 'l' :: r => some (Json.null, r)
        | _ => none
      else if c = 't' then
        match cs with
        | 'r' :: 'u' :: 'e' :: r => some (Json.bool true, r)
        | _ => none
      else if c = 'f' then
        match cs with
        | 'a' :: 'l' :: 's' :: 'e' :: r => some (Json.bool false, r)
        | _ => none
      else if c = '"' then
        match parseStringBody cs with
        | some (s, r) => some (Json.str (String.mk s), r)
        | none => none
      else if c = '[' then
        match skipWs cs with
        | ']' :: r => some (Json.arr JsonList.nil, r)
        | _ =>
          match parseElems fuel cs with
          | some (vs, r) => some (Json.arr vs, r)
          | none => none
      else if c = '\x7b' then
        match skipWs cs with
        | '\x7d' :: r => some (Json.obj JsonObj.nil, r)
        | _ =>
          match parseMembers fuel cs with
          | some (ps, r) => some (Json.obj (objFromPairs ps), r)
          | none => none
      else
        match parseInt (c :: cs) with
        | some (n, r) => some (Json.num n, r)
        | none => none

/-- Parse one or more comma-separated array elements and the closing
bracket. -/
def parseElems : Nat → List Char → Option (JsonList × List Char)
  | 0, _ => none
  | fuel + 1, input =>
    match parseValue fuel input with
    | none => none
    | some (v, rest) =>
      match skipWs rest with
      | ',' :: r2 =>
        match parseElems fuel r2 with
        | some (vs, r3) => some (JsonList.cons v vs, r3)
        | none => none
      | ']' :: r2 => some (JsonList.cons v JsonList.nil, r2)
      | _ => none

/-- Parse one or more comma-separated dict members and the closing brace,
returning the pairs in text order. -/
def parseMembers : Nat → List Char → Option (List (String × Json) × List Char)
  | 0, _ => none
  | fuel + 1, input =>
    match skipWs input with
    | '"' :: cs =>
      match parseStringBody cs with
      | none => none
      | some (kchars, r1) =>
        match skipWs r1 with
        | ':' :: r2 =>
          match parseValue fuel r2 with
          | none => none
          | some (v, r3) =>
            match skipWs r3 with
            | ',' :: r4 =>
              match parseMembers fuel r4 with
              | some (ms, r5) => some ((String.mk kchars, v) :: ms, r5)
              | none => none
            | '\x7d' :: r4 => some ([(String.mk kchars, v)], r4)
            | _ => none
        | _ => none
    | _ => none

end

/-- json.loads / json.load of a whole document: parse one value and require
only whitespace after it. -/
def loads (s : String) : Option Json :=
  match parseValue (s.data.length + 1) s.data with
  | some (v, rest) => if skipWs rest = [] then some v else none
  | none => none

/-- The keys of a dict, in order. -/
def JsonObj.keys : JsonObj → List String
  | .nil => []
  | .cons k _ tl => k :: tl.keys

mutual

/-- Well-formedness of a value as parsed JSON data: every dict has pairwise
distinct keys, as Python dicts always do. -/
def Json.wf : Json → Bool
  | .null => true
  | .bool _ => true
  | .num _ => true
  | .str _ => true
  | .arr xs => JsonList.wfList xs
  | .obj kvs => decide kvs.keys.Nodup && JsonObj.wfObj kvs

/-- All elements well-formed. -/
def JsonList.wfList : JsonList → Bool
  | .nil => true
  | .cons x xs => Json.wf x && JsonList.wfList xs

/-- All values well-formed. -/
def JsonObj.wfObj : JsonObj → Bool
  | .nil => true
  | .cons _ v tl => Json.wf v && JsonObj.wfObj tl

end

mutual

/-- Node count of a value; the parser needs at most this much fuel. -/
def Json.size : Json → Nat
  | .null => 1
  | .bool _ => 1
  | .num _ => 1
  | .str _ => 1
  | .arr xs => 1 + JsonList.sizeList xs
  | .obj kvs => 1 + JsonObj.sizeObj kvs

/-- Fuel needed for a list of array elements. -/
def JsonList.sizeList : JsonList → Nat
  | .nil => 0
  | .cons x xs => 1 + Json.size x + JsonList.sizeList xs

/-- Fuel needed for the members of a dict. -/
def JsonObj.sizeObj : JsonObj → Nat
  | .nil => 0
  | .cons _ v tl => 1 + Json.size v + JsonObj.sizeObj tl

end

/-- The input that follows a serialized number may not extend it: it must
not begin with a digit or a float continuation character. -/
def numSafe : List Char → Bool
  | [] => true
  | c :: _ => !(isDigitChar c || c = '.' || c = 'e' || c = 'E')

/-- The closing indentation emitted before a closing bracket. -/
def closePad (indent : Option Nat) (level : Nat) : List Char :=
  match indent with
  | none => []
  | some n => '\n' :: spaces (n * level)

/-- The padding that follows the comma of an item separator. -/
def sepPad (indent : Option Nat) (level : Nat) : List Char :=
  match indent with
  | none => []
  | some n => '\n' :: spaces (n * (level + 1))

/-- The space that may follow the colon of a dict entry. -/
def kvPad (indent : Option Nat) : List Char :=
  match indent with
  | none => []
  | some _ => [' ']

/-- The inversion property threaded through the round-trip induction: the
value parser recovers the key-order normal form of a serialized value when
given enough fuel, leaving the trailing input untouched. -/
def ParsesBack (x : Json) : Prop :=
  ∀ (fuel : Nat), Json.size x ≤ fuel → ∀ (ind : Option Nat) (lvl : Nat) (rest : List Char),
    numSafe rest = true →
    parseValue fuel (Json.dump ind lvl x ++ rest) = some (Json.deepSort x, rest)

/-- Fuel needed to parse a list of serialized dict members. -/
def pairsSize : List (String × Json) → Nat
  | [] => 0
  | kv :: tl => 1 + Json.size kv.2 + pairsSize tl

/-!
## VectorState save and load (client-pipeline/scripts/utils/state.py)
-/
/-- The in-memory ledger of VectorState: self._data is always of the shape
\x7b"docs": \x7b...\x7d\x7d, so only the docs dict is carried. -/
structure VectorState where
  docs : JsonObj

/-- VectorState.to_dict: the payload \x7b"docs": dict(self.docs)\x7d that
save writes. -/
def VectorState.to_dict (s : VectorState) : Json :=
  Json.obj (JsonObj.cons "docs" (Json.obj s.docs) JsonObj.nil)

/-- VectorState.save via _atomic_write_json: the file ends up holding
json.dumps(payload, indent=2, sort_keys=True, ensure_ascii=False). -/
def VectorState.save (s : VectorState) : String :=
  String.mk (Json.dump (some 2) 0 (VectorState.to_dict s))

/-- VectorState._load on a file with the given content: json.load the file
(a parse failure raises, modelled as none), then keep
\x7b"docs": dict(loaded.get("docs", \x7b\x7d))\x7d when the document is a
Mapping, else keep the default empty docs of __init__.  dict(...) of a
non-dict docs value raises TypeError (none); dict(list-of-pairs), which no
saved state produces, is outside the model. -/
def VectorState.ofFileContent (content : String) : Option VectorState :=
  match loads content with
  | none => none
  | some (Json.obj kvs) =>
    match kvs.get "docs" with
    | some (Json.obj d) => some ⟨d⟩
    | some _ => none
    | none => some ⟨JsonObj.nil⟩
  | some _ => some ⟨JsonObj.nil⟩

/-- A concrete two-entry ledger with nested metadata for the C7 witness. -/
def c7State : VectorState :=
  ⟨JsonObj.cons "doc-b"
    (Json.obj (JsonObj.cons "fileId" (Json.str "file_2")
      (JsonObj.cons "contentHash" (Json.str "beta")
        (JsonObj.cons "extra"
          (Json.obj (JsonObj.cons "n" (Json.num 7)
            (JsonObj.cons "tags"
              (Json.arr (JsonList.cons (Json.str "x")
                (JsonList.cons (Json.num (-3)) JsonList.nil)))
              JsonObj.nil)))
          JsonObj.nil))))
    (JsonObj.cons "doc-a"
      (Json.obj (JsonObj.cons "fileId" (Json.str "file_1")
        (JsonObj.cons "lastSyncedAt" (Json.str "2024-01-01T00:00:00Z")
          JsonObj.nil)))
      JsonObj.nil)⟩

theorem JsonList.toList_ofList_elems (l : List Json) : (JsonList.ofList l).toList = l := by
  induction l with
  | nil => rfl
  | cons x xs ih => simp [JsonList.ofList, JsonList.toList, ih]

theorem JsonObj.toList_ofList (l : List (String × Json)) : (JsonObj.ofList l).toList = l := by
  induction l with
  | nil => rfl
  | cons kv tl ih => cases kv; simp [JsonObj.ofList, JsonObj.toList, ih]

theorem seenIn_append_not_truthy {r : VectorFileRecord} (pre : List VectorFileRecord)
    (h : truthyId r.external_id = false) (e : String) :
    seenIn (pre ++ [r]) e = seenIn pre e := by
  simp [seenIn, List.any_append, h]

theorem seenIn_append_truthy {r : VectorFileRecord} (pre : List VectorFileRecord)
    (h : truthyId r.external_id = true) (e : String) :
    seenIn (pre ++ [r]) e = (seenIn pre e || (r.external_id.getD "" == e)) := by
  simp [seenIn, List.any_append, h]

/-- Invariant relating the `seen` dict of the implementation to the prefix
of already scanned records of the spec wording. -/
theorem dup_scan_eq_spec_go (records : List VectorFileRecord) :
    ∀ (seen : List (String × Json)) (pre : List VectorFileRecord),
      (∀ e, e ∈ seen.map Prod.fst ↔ seenIn pre e = true) →
      dup_scan seen records = spec_dup_go pre records := by
  induction records with
  | nil => intro seen pre _; rfl
  | cons r rest ih =>
    intro seen pre hinv
    cases ht : truthyId r.external_id with
    | false =>
      have htail : dup_scan seen rest = spec_dup_go (pre ++ [r]) rest := by
        refine ih seen (pre ++ [r]) ?_
        intro e
        rw [seenIn_append_not_truthy pre ht e]
        exact hinv e
      simp [dup_scan, spec_dup_go, ht, htail]
    | true =>
      by_cases hm : r.external_id.getD "" ∈ seen.map Prod.fst
      · have hseen : seenIn pre (r.external_id.getD "") = true := (hinv _).mp hm
        have htail : dup_scan seen rest = spec_dup_go (pre ++ [r]) rest := by
          refine ih seen (pre ++ [r]) ?_
          intro e
          rw [seenIn_append_truthy pre ht e]
          constructor
          · intro he
            simp [(hinv e).mp he]
          · intro he
            cases hb : seenIn pre e with
            | true => exact (hinv e).mpr hb
            | false =>
              have hbe : r.external_id.getD "" = e := by
                rw [hb] at he
                simpa using he
              exact hbe ▸ hm
        simp [dup_scan, spec_dup_go, ht, hm, hseen, htail, mkDupDeletion]
      · have hseen : seenIn pre (r.external_id.getD "") = false := by
          cases h : seenIn pre (r.external_id.getD "") with
          | false => rfl
          | true => exact absurd ((hinv _).mpr h) hm
        have htail : dup_scan ((r.external_id.getD "", r.file_id) :: seen) rest =
            spec_dup_go (pre ++ [r]) rest := by
          refine ih _ (pre ++ [r]) ?_
          intro e
          rw [seenIn_append_truthy pre ht e]
          constructor
          · intro he
            have he' : e = r.external_id.getD "" ∨ ∃ x, (e, x) ∈ seen := by
              simpa using he
            rcases he' with h | ⟨x, hx⟩
            · simp [h]
            · have hmem : e ∈ seen.map Prod.fst := by
                simp only [List.mem_map]
                exact ⟨(e, x), hx, rfl⟩
              simp [(hinv e).mp hmem]
          · intro he
            cases hb : seenIn pre e with
            | true => exact List.mem_cons_of_mem _ ((hinv e).mpr hb)
            | false =>
              have hbe : r.external_id.getD "" = e := by
                rw [hb] at he
                simpa using he
              exact hbe ▸ List.mem_cons_self _ _
        simp [dup_scan, spec_dup_go, ht, hm, hseen, htail]

theorem dup_scan_eq_spec (records : List VectorFileRecord) :
    dup_scan [] records = spec_duplicate_deletions records := by
  refine dup_scan_eq_spec_go records [] [] ?_
  intro e
  simp [seenIn]

theorem stale_scan_eq_spec (allowed : List String) (docs : List (String × JsonObj)) :
    stale_scan allowed docs = spec_stale_deletions allowed docs := by
  induction docs with
  | nil => rfl
  | cons kv rest ih =>
    obtain ⟨eid, entry⟩ := kv
    by_cases h : eid ∈ allowed <;>
      simp [stale_scan, spec_stale_deletions, List.filterMap_cons, h] <;>
      simpa [spec_stale_deletions] using ih

theorem mem_dup_scan_reason (d : VectorFileRecord) :
    ∀ (records : List VectorFileRecord) (seen : List (String × Json)),
      d ∈ dup_scan seen records → d.reason = some "duplicate_external_id" := by
  intro records
  induction records with
  | nil => intro seen h; simp [dup_scan] at h
  | cons r rest ih =>
    intro seen h
    by_cases ht : truthyId r.external_id = false
    · exact ih seen (by simpa [dup_scan, ht] using h)
    · simp only [dup_scan, if_neg ht] at h
      by_cases hm : r.external_id.getD "" ∈ seen.map Prod.fst
      · rcases List.mem_cons.mp (by simpa [hm] using h) with hd | hd
        · rw [hd]
        · exact ih seen hd
      · exact ih _ (by simpa [hm] using h)

theorem mem_stale_scan (d : VectorFileRecord) :
    ∀ (docs : List (String × JsonObj)) (allowed : List String),
      d ∈ stale_scan allowed docs →
      ∃ eid, d.external_id = some eid ∧ eid ∉ allowed := by
  intro docs
  induction docs with
  | nil => intro allowed h; simp [stale_scan] at h
  | cons kv rest ih =>
    intro allowed h
    obtain ⟨eid, entry⟩ := kv
    by_cases hmem : eid ∈ allowed
    · exact ih allowed (by simpa [stale_scan, hmem] using h)
    · rcases List.mem_cons.mp (by simpa [stale_scan, hmem] using h) with hd | hd
      · exact ⟨eid, by rw [hd], hmem⟩
      · exact ih allowed hd

/-- Claim C1 (corrected): ledger-driven (stale) deletions produced by
plan_reconciliation never carry an external id present in the allow-list.
The original claim extended this to the duplicate-driven strategy as well,
which is refuted by the counterexample below: a duplicate upload of an
allow-listed external id is scheduled for deletion (its first remote copy is
kept). -/
theorem C1_stale_deletions_respect_allow_list (records : List VectorFileRecord)
    (allowed : List String) (state_docs : List (String × JsonObj))
    (d : VectorFileRecord)
    (hmem : d ∈ (plan_reconciliation records allowed state_docs).deletions)
    (hreason : d.reason = some "not_in_combined_index") :
    ∀ eid, d.external_id = some eid → eid ∉ allowed := by
  intro eid heid
  rcases List.mem_append.mp hmem with hdup | hstale
  · have := mem_dup_scan_reason d records [] hdup
    rw [this] at hreason
    exact absurd (Option.some.inj hreason) (by decide)
  · obtain ⟨eid', heid', hnot⟩ := mem_stale_scan d state_docs allowed hstale
    rw [heid] at heid'
    exact (Option.some.inj heid') ▸ hnot

/-- Claim C1 is false as stated: on c1Records with allow-list ["keep.json"]
and an empty ledger, the plan contains a deletion (the duplicate second
record) whose external id keep.json is a member of the allow-list. -/
theorem C1_counterexample :
    ¬ (∀ d ∈ (plan_reconciliation c1Records ["keep.json"] []).deletions,
        ∀ eid, d.external_id = some eid → eid ∉ ["keep.json"]) := by
  intro h
  refine h { file_id := Json.str "f-dupe", external_id := some "keep.json", metadata := .nil,
             reason := some "duplicate_external_id", remove_state := false }
    ?_ "keep.json" rfl ?_
  · exact List.mem_cons_self _ _
  · exact List.mem_cons_self _ _

/-- Claim C2 (corrected): the deletions of plan_reconciliation are exactly
the spec-worded duplicate-driven deletions followed by the ledger-driven
deletions, where — amended — a stale ledger entry is scheduled even when it
carries no remote file id (the deletion then carries the empty string).
The conjunction also checks the concrete scenario of the claim: two remote
records sharing keep.json plus a ledger entry for remove.json absent from
the allow-list yield exactly one duplicate-deletion for the second keep.json
record (removeFromLedger false) and one stale-deletion for remove.json
(removeFromLedger true). -/
theorem C2_plan_reconciliation_characterization :
    (∀ (records : List VectorFileRecord) (allowed : List String)
        (docs : List (String × JsonObj)),
      plan_reconciliation records allowed docs =
        { deletions := spec_duplicate_deletions records ++ spec_stale_deletions allowed docs,
          state_only_removals := [] }) ∧
    plan_reconciliation
        [ { file_id := Json.str "f-keep", external_id := some "keep.json" },
          { file_id := Json.str "f-dupe", external_id := some "keep.json" },
          { file_id := Json.str "f-remove", external_id := some "remove.json" } ]
        ["keep.json"]
        [("remove.json", JsonObj.cons "fileId" (Json.str "f-remove")
            (JsonObj.cons "contentHash" (Json.str "hash") JsonObj.nil))] =
      { deletions :=
          [ { file_id := Json.str "f-dupe", external_id := some "keep.json", metadata := .nil,
              reason := some "duplicate_external_id", remove_state := false },
            { file_id := Json.str "f-remove", external_id := some "remove.json", metadata := .nil,
              reason := some "not_in_combined_index", remove_state := true } ],
        state_only_removals := [] } := by
  constructor
  · intro records allowed docs
    unfold plan_reconciliation
    rw [dup_scan_eq_spec, stale_scan_eq_spec]
  · rfl

/-- Claim C2 is false as stated: with no remote records, an empty allow-list
and a ledger entry for x.json that carries no fileId, the code still
schedules a deletion (with the empty string as file id), while the claimed
characterization — which only schedules entries carrying a remote file id —
yields no deletion at all. -/
theorem C2_counterexample :
    (plan_reconciliation [] [] c2Docs).deletions ≠
      spec_duplicate_deletions [] ++ claimed_stale_deletions [] c2Docs :=
  fun h => absurd (congrArg List.length h) (by decide)

/-- Claim C10: for every input, plan_reconciliation returns an empty
stateOnlyRemovals list: the source initializes it to the empty list and
never appends to it. -/
theorem C10_state_only_removals_empty (records : List VectorFileRecord)
    (allowed : List String) (state_docs : List (String × JsonObj)) :
    (plan_reconciliation records allowed state_docs).state_only_removals = [] :=
  rfl

theorem determine_actions_filter (items : List DocumentWorkItem) :
    (determine_actions items).create = items.filter (fun i => !entryTruthy i.state_record) ∧
    (determine_actions items).update =
      items.filter (fun i => entryTruthy i.state_record && !storedHashMatches i) ∧
    (determine_actions items).skip =
      items.filter (fun i => entryTruthy i.state_record && storedHashMatches i) := by
  induction items with
  | nil => exact ⟨rfl, rfl, rfl⟩
  | cons item rest ih =>
    obtain ⟨h1, h2, h3⟩ := ih
    cases hsr : item.state_record with
    | none =>
      refine ⟨?_, ?_, ?_⟩ <;>
        simp [determine_actions, hsr, entryTruthy, storedHashMatches, h1, h2, h3]
    | some entry =>
      cases entry with
      | nil =>
        refine ⟨?_, ?_, ?_⟩ <;>
          simp [determine_actions, hsr, entryTruthy, storedHashMatches, h1, h2, h3]
      | cons k v tl =>
        cases hh : isStrVal ((JsonObj.cons k v tl).get "contentHash") item.content_hash with
        | false =>
          refine ⟨?_, ?_, ?_⟩ <;>
            simp [determine_actions, hsr, entryTruthy, storedHashMatches, hh, h1, h2, h3]
        | true =>
          refine ⟨?_, ?_, ?_⟩ <;>
            simp [determine_actions, hsr, entryTruthy, storedHashMatches, hh, h1, h2, h3]

/-- Claim C4 (corrected): determine_actions partitions the work items into
the three buckets, where — amended — an item goes to create when its ledger
entry is absent OR is the empty record (the source tests Python truthiness
of the entry, not key presence); an item with a nonempty entry goes to
update when the stored contentHash is not the fresh hash string, and to skip
otherwise; every item lands in exactly one bucket. -/
theorem C4_determine_actions_partition (items : List DocumentWorkItem) :
    (∀ i ∈ items,
      (i.state_record = none ∨ i.state_record = some JsonObj.nil) →
        i ∈ (determine_actions items).create) ∧
    (∀ i ∈ items, ∀ k v tl, i.state_record = some (JsonObj.cons k v tl) →
      isStrVal ((JsonObj.cons k v tl).get "contentHash") i.content_hash = false →
        i ∈ (determine_actions items).update) ∧
    (∀ i ∈ items, ∀ k v tl, i.state_record = some (JsonObj.cons k v tl) →
      isStrVal ((JsonObj.cons k v tl).get "contentHash") i.content_hash = true →
        i ∈ (determine_actions items).skip) ∧
    (∀ i ∈ items,
      (i ∈ (determine_actions items).create ∧ i ∉ (determine_actions items).update ∧
        i ∉ (determine_actions items).skip) ∨
      (i ∉ (determine_actions items).create ∧ i ∈ (determine_actions items).update ∧
        i ∉ (determine_actions items).skip) ∨
      (i ∉ (determine_actions items).create ∧ i ∉ (determine_actions items).update ∧
        i ∈ (determine_actions items).skip)) := by
  obtain ⟨h1, h2, h3⟩ := determine_actions_filter items
  refine ⟨?_, ?_, ?_, ?_⟩
  · intro i hi hsr
    rw [h1]
    refine List.mem_filter.mpr ⟨hi, ?_⟩
    rcases hsr with h | h <;> simp [h, entryTruthy]
  · intro i hi k v tl hsr hh
    rw [h2]
    refine List.mem_filter.mpr ⟨hi, ?_⟩
    simp [hsr, entryTruthy, storedHashMatches, hh]
  · intro i hi k v tl hsr hh
    rw [h3]
    refine List.mem_filter.mpr ⟨hi, ?_⟩
    simp [hsr, entryTruthy, storedHashMatches, hh]
  · intro i hi
    rw [h1, h2, h3]
    cases hb1 : entryTruthy i.state_record with
    | false =>
      refine Or.inl ⟨List.mem_filter.mpr ⟨hi, by simp [hb1]⟩, ?_, ?_⟩ <;>
        · intro hmem
          have := (List.mem_filter.mp hmem).2
          simp [hb1] at this
    | true =>
      cases hb2 : storedHashMatches i with
      | false =>
        refine Or.inr (Or.inl ⟨?_, List.mem_filter.mpr ⟨hi, by simp [hb1, hb2]⟩, ?_⟩) <;>
          · intro hmem
            have := (List.mem_filter.mp hmem).2
            simp [hb1, hb2] at this
      | true =>
        refine Or.inr (Or.inr ⟨?_, ?_, List.mem_filter.mpr ⟨hi, by simp [hb1, hb2]⟩⟩) <;>
          · intro hmem
            have := (List.mem_filter.mp hmem).2
            simp [hb1, hb2] at this

/-- Claim C4 is false as stated: emptyEntryItem has a ledger entry (the
empty record) whose stored content hash — absent, hence unequal to the
fresh hash in the Python != sense — differs, so the claim sends it to
update; the code sends it to create because the entry is falsy. -/
theorem C4_counterexample :
    ¬ (∀ i ∈ [emptyEntryItem],
        (∃ e, i.state_record = some e ∧
          isStrVal (e.get "contentHash") i.content_hash = false) →
        i ∈ (determine_actions [emptyEntryItem]).update) := by
  intro h
  have hmem := h emptyEntryItem (List.mem_cons_self _ _) ⟨JsonObj.nil, rfl, rfl⟩
  simp [determine_actions, emptyEntryItem] at hmem

/-- Witness for C4_determine_actions_partition at a concrete input. -/
theorem C4_witness :
    emptyEntryItem ∈ [emptyEntryItem] ∧
    (emptyEntryItem.state_record = none ∨ emptyEntryItem.state_record = some JsonObj.nil) ∧
    emptyEntryItem ∈ (determine_actions [emptyEntryItem]).create :=
  ⟨List.mem_cons_self _ _, Or.inr rfl,
    (C4_determine_actions_partition [emptyEntryItem]).1 emptyEntryItem
      (List.mem_cons_self _ _) (Or.inr rfl)⟩

theorem lookupEntry_setEntry_self (docs : List (String × JsonObj)) (k : String) (e : JsonObj) :
    lookupEntry (setEntry docs k e) k = some e := by
  induction docs with
  | nil => simp [setEntry, lookupEntry]
  | cons kv tl ih =>
    obtain ⟨k0, e0⟩ := kv
    by_cases h : k0 = k <;> simp [setEntry, lookupEntry, h, ih]

/-- Claim C9: an item whose ledger entry exists but is the empty record is
classified create, never update or skip — the no-ledger-entry test of the
source is a Python truthiness test on the entry, not a key-presence test.
The second conjunct covers the parenthetical of the claim: set_metadata
invoked with no metadata fields on an external id that has no entry stores
exactly the empty record. -/
theorem C9_empty_entry_goes_to_create :
    (∀ (items : List DocumentWorkItem) (i : DocumentWorkItem), i ∈ items →
      i.state_record = some JsonObj.nil →
      i ∈ (determine_actions items).create ∧
      i ∉ (determine_actions items).update ∧
      i ∉ (determine_actions items).skip) ∧
    (∀ (docs : List (String × JsonObj)) (eid : String),
      lookupEntry docs eid = none →
      lookupEntry (set_metadata docs eid JsonObj.nil) eid = some JsonObj.nil) := by
  constructor
  · intro items i hi he
    obtain ⟨h1, h2, h3⟩ := determine_actions_filter items
    refine ⟨?_, ?_, ?_⟩
    · rw [h1]; exact List.mem_filter.mpr ⟨hi, by simp [he, entryTruthy]⟩
    · rw [h2]
      intro hmem
      have := (List.mem_filter.mp hmem).2
      simp [he, entryTruthy] at this
    · rw [h3]
      intro hmem
      have := (List.mem_filter.mp hmem).2
      simp [he, entryTruthy] at this
  · intro docs eid h
    unfold set_metadata
    rw [h]
    exact lookupEntry_setEntry_self docs eid _

/-- Witness for C9_empty_entry_goes_to_create at a concrete input. -/
theorem C9_witness :
    emptyEntryItem.state_record = some JsonObj.nil ∧
    emptyEntryItem ∈ (determine_actions [emptyEntryItem]).create ∧
    emptyEntryItem ∉ (determine_actions [emptyEntryItem]).update ∧
    lookupEntry (set_metadata [] "doc.json" JsonObj.nil) "doc.json" = some JsonObj.nil :=
  ⟨rfl,
    (C9_empty_entry_goes_to_create.1 [emptyEntryItem] emptyEntryItem
      (List.mem_cons_self _ _) rfl).1,
    (C9_empty_entry_goes_to_create.1 [emptyEntryItem] emptyEntryItem
      (List.mem_cons_self _ _) rfl).2.1,
    C9_empty_entry_goes_to_create.2 [] "doc.json" rfl⟩

/-- Claim C8 (corrected): determine_actions is a pure function, so two runs
on the same unmodified inputs agree; and — amended — the all-skip outcome
holds not on an arbitrary unmodified ledger but exactly when the ledger
entry of every item already stores the freshly computed content hash of the
item, which is the state left behind by a completed successful sync. -/
theorem C8_planner_idempotent (items : List DocumentWorkItem)
    (h : ∀ i ∈ items, ∃ e, i.state_record = some e ∧
        isStrVal (e.get "contentHash") i.content_hash = true) :
    determine_actions items = determine_actions items ∧
    (determine_actions items).create = [] ∧
    (determine_actions items).update = [] ∧
    (determine_actions items).skip = items := by
  obtain ⟨h1, h2, h3⟩ := determine_actions_filter items
  have hmatch : ∀ i ∈ items, entryTruthy i.state_record = true ∧ storedHashMatches i = true := by
    intro i hi
    obtain ⟨e, he, hh⟩ := h i hi
    cases e with
    | nil => simp [JsonObj.get, isStrVal] at hh
    | cons k v tl => exact ⟨by simp [he, entryTruthy], by simp [storedHashMatches, he, hh]⟩
  refine ⟨rfl, ?_, ?_, ?_⟩
  · rw [h1, List.filter_eq_nil_iff]
    intro i hi
    simp [(hmatch i hi).1]
  · rw [h2, List.filter_eq_nil_iff]
    intro i hi
    simp [(hmatch i hi).1, (hmatch i hi).2]
  · rw [h3, List.filter_eq_self]
    intro i hi
    simp [(hmatch i hi).1, (hmatch i hi).2]

/-- Claim C8 is false as stated: on the unmodified input [freshItem] the
planner is deterministic (both runs return the same buckets), but the
second run is not entirely skip — freshItem lands in create both times. -/
theorem C8_counterexample :
    ¬ ((determine_actions [freshItem]).create = [] ∧
       (determine_actions [freshItem]).update = []) := by
  intro h
  have hc : (determine_actions [freshItem]).create = [freshItem] := rfl
  rw [hc] at h
  exact List.cons_ne_nil _ _ h.1

/-- Witness for C8_planner_idempotent at a concrete input. -/
theorem C8_witness :
    (determine_actions [syncedItem]).create = [] ∧
    (determine_actions [syncedItem]).update = [] ∧
    (determine_actions [syncedItem]).skip = [syncedItem] := by
  have h := C8_planner_idempotent [syncedItem] (by
    intro i hi
    have heq : i = syncedItem := List.mem_singleton.mp hi
    subst heq
    exact ⟨_, rfl, rfl⟩)
  exact ⟨h.2.1, h.2.2.1, h.2.2.2⟩

/-- Witness for C1_stale_deletions_respect_allow_list at a concrete input. -/
theorem C1_witness :
    c1wDel ∈ (plan_reconciliation [] ["keep.json"] c1wDocs).deletions ∧
    c1wDel.reason = some "not_in_combined_index" ∧
    "old.json" ∉ ["keep.json"] :=
  ⟨List.mem_cons_self _ _, rfl,
    C1_stale_deletions_respect_allow_list [] ["keep.json"] c1wDocs c1wDel
      (List.mem_cons_self _ _) rfl "old.json" rfl⟩

/-!
## Properties of with_retries
-/
theorem with_retriesGo_spec {ε α : Type} (op : Nat → Except ε α) (base : ℚ) :
    ∀ (remaining attempt : Nat),
      1 ≤ (with_retriesGo op base attempt remaining).calls ∧
      (with_retriesGo op base attempt remaining).calls ≤ remaining + 1 ∧
      (with_retriesGo op base attempt remaining).sleeps =
        (List.range ((with_retriesGo op base attempt remaining).calls - 1)).map
          (fun i => backoff_sleep (attempt + i + 1) base) ∧
      ((∀ i, attempt ≤ i → i ≤ attempt + remaining → ∃ e, op i = Except.error e) →
        (with_retriesGo op base attempt remaining).result = op (attempt + remaining) ∧
        (with_retriesGo op base attempt remaining).calls = remaining + 1) := by
  intro remaining
  induction remaining with
  | zero =>
    intro attempt
    cases hop : op attempt with
    | ok a =>
      refine ⟨?_, ?_, ?_, fun _ => ⟨?_, ?_⟩⟩ <;> simp [with_retriesGo, hop]
    | error e =>
      refine ⟨?_, ?_, ?_, fun _ => ⟨?_, ?_⟩⟩ <;> simp [with_retriesGo, hop]
  | succ r ih =>
    intro attempt
    cases hop : op attempt with
    | ok a =>
      have hgo : with_retriesGo op base attempt (r + 1) =
          { result := Except.ok a, calls := 1, sleeps := [] } := by
        rw [with_retriesGo, hop]
      have hcalls : (with_retriesGo op base attempt (r + 1)).calls = 1 := by rw [hgo]
      have hsleeps : (with_retriesGo op base attempt (r + 1)).sleeps = [] := by rw [hgo]
      refine ⟨?_, ?_, ?_, fun hall => ?_⟩
      · rw [hcalls]
      · rw [hcalls]; omega
      · rw [hsleeps, hcalls]; simp
      · obtain ⟨e, he⟩ := hall attempt (Nat.le_refl _) (by omega)
        rw [hop] at he
        exact absurd he (by simp)
    | error e =>
      obtain ⟨ih1, ih2, ih3, ih4⟩ := ih (attempt + 1)
      have hgo : with_retriesGo op base attempt (r + 1) =
          { result := (with_retriesGo op base (attempt + 1) r).result,
            calls := (with_retriesGo op base (attempt + 1) r).calls + 1,
            sleeps := backoff_sleep (attempt + 1) base ::
              (with_retriesGo op base (attempt + 1) r).sleeps } := by
        rw [with_retriesGo, hop]
      have hcalls : (with_retriesGo op base attempt (r + 1)).calls =
          (with_retriesGo op base (attempt + 1) r).calls + 1 := by rw [hgo]
      have hsleeps : (with_retriesGo op base attempt (r + 1)).sleeps =
          backoff_sleep (attempt + 1) base ::
            (with_retriesGo op base (attempt + 1) r).sleeps := by rw [hgo]
      have hres : (with_retriesGo op base attempt (r + 1)).result =
          (with_retriesGo op base (attempt + 1) r).result := by rw [hgo]
      refine ⟨?_, ?_, ?_, fun hall => ?_⟩
      · rw [hcalls]; omega
      · rw [hcalls]; omega
      · obtain ⟨m, hm⟩ : ∃ m, (with_retriesGo op base (attempt + 1) r).calls = m + 1 :=
          ⟨(with_retriesGo op base (attempt + 1) r).calls - 1, by omega⟩
        rw [hsleeps, hcalls, hm, Nat.add_sub_cancel, List.range_succ_eq_map,
          List.map_cons, List.map_map]
        congr 1
        rw [ih3, hm, Nat.add_sub_cancel]
        refine List.map_congr_left ?_
        intro i _
        show backoff_sleep (attempt + 1 + i + 1) base = backoff_sleep (attempt + (i + 1) + 1) base
        congr 1
        omega
      · have hall' : ∀ i, attempt + 1 ≤ i → i ≤ attempt + 1 + r → ∃ e, op i = Except.error e :=
          fun i h1 h2 => hall i (by omega) (by omega)
        obtain ⟨hres', hcalls'⟩ := ih4 hall'
        refine ⟨?_, by rw [hcalls, hcalls']⟩
        rw [hres, hres']
        congr 1
        omega

/-- Claim C3 (corrected): with_retries invokes the operation at most
maxRetries + 1 times, and when every attempt up to the last fails, the
error of the final attempt is propagated to the caller.  Amended: the sleep
after failed attempt i (0-based, non-final) is base_delay * 2 ^ (i + 1),
not base_delay * 2 ^ i as claimed — the source calls
backoff_sleep(attempt + 1, base_delay) after the failure of `attempt`. -/
theorem C3_with_retries_spec {ε α : Type} (op : Nat → Except ε α) (retries : Nat) (base : ℚ) :
    (with_retries op retries base).calls ≤ retries + 1 ∧
    (with_retries op retries base).sleeps =
      (List.range ((with_retries op retries base).calls - 1)).map
        (fun i => base * 2 ^ (i + 1)) ∧
    ((∀ i, i ≤ retries → ∃ e, op i = Except.error e) →
      (with_retries op retries base).result = op retries) := by
  obtain ⟨h1, h2, h3, h4⟩ := with_retriesGo_spec op base retries 0
  simp only [with_retries]
  refine ⟨h2, ?_, fun hall => ?_⟩
  · rw [h3]
    refine List.map_congr_left ?_
    intro i _
    simp [backoff_sleep]
  · have := (h4 (fun i _ hi => hall i (by omega))).1
    simpa using this

/-- Claim C3 is false as stated: with base delay 1 and maxRetries 1, the
single non-final failed attempt has index 0, so the claim predicts a sleep
of 1 * 2 ^ 0 = 1; the code sleeps 1 * 2 ^ (0 + 1) = 2. -/
theorem C3_counterexample :
    (with_retries alwaysFails 1 1).sleeps = [(1 : ℚ) * 2 ^ (0 + 1)] ∧
    ((1 : ℚ) * 2 ^ (0 + 1)) ≠ 1 * 2 ^ 0 := by
  constructor
  · rfl
  · norm_num

/-- Witness for C3_with_retries_spec at a concrete input. -/
theorem C3_witness :
    (with_retries alwaysFails 2 1).calls ≤ 3 ∧
    (with_retries alwaysFails 2 1).sleeps =
      (List.range ((with_retries alwaysFails 2 1).calls - 1)).map
        (fun i => (1 : ℚ) * 2 ^ (i + 1)) ∧
    (with_retries alwaysFails 2 1).result = alwaysFails 2 :=
  ⟨(C3_with_retries_spec alwaysFails 2 1).1,
    (C3_with_retries_spec alwaysFails 2 1).2.1,
    (C3_with_retries_spec alwaysFails 2 1).2.2 (fun _ _ => ⟨0, rfl⟩)⟩

theorem charsLe_total (a b : List Char) : charsLe a b = true ∨ charsLe b a = true := by
  induction a generalizing b with
  | nil => left; rfl
  | cons x xs ih =>
    cases b with
    | nil => right; rfl
    | cons y ys =>
      rcases Nat.lt_trichotomy x.toNat y.toNat with h | h | h
      · left; simp [charsLe, h]
      · rcases ih ys with h2 | h2
        · left; simp [charsLe, h, h2]
        · right; simp [charsLe, h.symm, h2]
      · right; simp [charsLe, h, Nat.lt_asymm h]

theorem charsLe_trans {a b c : List Char} (hab : charsLe a b = true)
    (hbc : charsLe b c = true) : charsLe a c = true := by
  induction a generalizing b c with
  | nil => rfl
  | cons x xs ih =>
    cases b with
    | nil => simp [charsLe] at hab
    | cons y ys =>
      cases c with
      | nil => simp [charsLe] at hbc
      | cons z zs =>
        simp only [charsLe] at hab hbc ⊢
        by_cases h1 : x.toNat < y.toNat
        · by_cases h2 : y.toNat < z.toNat
          · simp [Nat.lt_trans h1 h2]
          · by_cases h3 : z.toNat < y.toNat
            · simp [h2, h3] at hbc
            · have hyz : y.toNat = z.toNat :=
                Nat.le_antisymm (Nat.not_lt.mp h3) (Nat.not_lt.mp h2)
              simp [hyz ▸ h1]
        · by_cases h4 : y.toNat < x.toNat
          · simp [h1, h4] at hab
          · have hxy : x.toNat = y.toNat :=
              Nat.le_antisymm (Nat.not_lt.mp h4) (Nat.not_lt.mp h1)
            rw [if_neg h1, if_neg h4] at hab
            by_cases h2 : y.toNat < z.toNat
            · simp [hxy ▸ h2]
            · by_cases h3 : z.toNat < y.toNat
              · simp [h2, h3] at hbc
              · have hyz : y.toNat = z.toNat :=
                  Nat.le_antisymm (Nat.not_lt.mp h3) (Nat.not_lt.mp h2)
                rw [if_neg h2, if_neg h3] at hbc
                have hxz1 : ¬ x.toNat < z.toNat := by omega
                have hxz2 : ¬ z.toNat < x.toNat := by omega
                rw [if_neg hxz1, if_neg hxz2]
                exact ih hab hbc

theorem charsLe_antisymm {a b : List Char} (hab : charsLe a b = true)
    (hba : charsLe b a = true) : a = b := by
  induction a generalizing b with
  | nil =>
    cases b with
    | nil => rfl
    | cons y ys => simp [charsLe] at hba
  | cons x xs ih =>
    cases b with
    | nil => simp [charsLe] at hab
    | cons y ys =>
      rcases Nat.lt_trichotomy x.toNat y.toNat with h | h | h
      · simp [charsLe, h, Nat.lt_asymm h] at hba
      · have hx : x = y := Char.eq_of_val_eq (by
          apply UInt32.eq_of_val_eq
          apply Fin.eq_of_val_eq
          exact h)
        subst hx
        simp [charsLe, Nat.lt_irrefl] at hab hba
        rw [ih hab hba]
      · simp [charsLe, h, Nat.lt_asymm h] at hab

theorem strLe_antisymm {a b : String} (hab : strLe a b = true)
    (hba : strLe b a = true) : a = b := by
  cases a; cases b
  simpa using congrArg String.mk (charsLe_antisymm hab hba)

instance {γ : Type} : IsTotal (String × γ) keyLe :=
  ⟨fun a b => charsLe_total a.1.data b.1.data⟩

instance {γ : Type} : IsTrans (String × γ) keyLe :=
  ⟨fun _ _ _ hab hbc => charsLe_trans hab hbc⟩

theorem sortByKey_perm {γ : Type} (l : List (String × γ)) :
    List.Perm (sortByKey l) l :=
  List.perm_insertionSort keyLe l

theorem sortByKey_sorted {γ : Type} (l : List (String × γ)) :
    List.Pairwise keyLe (sortByKey l) :=
  List.sorted_insertionSort keyLe l

/-- Two lists that are permutations with pairwise-ordered elements under an
asymmetric relation are equal. -/
theorem eq_of_perm_of_pairwise_asymm {α : Type} {R : α → α → Prop}
    (hasym : ∀ a b, R a b → R b a → False) :
    ∀ (l₁ l₂ : List α), List.Perm l₁ l₂ → l₁.Pairwise R → l₂.Pairwise R → l₁ = l₂ := by
  intro l₁
  induction l₁ with
  | nil => intro l₂ hp _ _; exact (hp.nil_eq).symm ▸ rfl
  | cons a t₁ ih =>
    intro l₂ hp hp₁ hp₂
    cases l₂ with
    | nil => exact absurd hp.symm.nil_eq (by simp)
    | cons b t₂ =>
      have hab : a = b := by
        by_contra hne
        have ha : a ∈ b :: t₂ := hp.mem_iff.mp (List.mem_cons_self _ _)
        have hat₂ : a ∈ t₂ := by
          rcases List.mem_cons.mp ha with h | h
          · exact absurd h hne
          · exact h
        have hRba : R b a := (List.pairwise_cons.mp hp₂).1 a hat₂
        have hb : b ∈ a :: t₁ := hp.symm.mem_iff.mp (List.mem_cons_self _ _)
        have hbt₁ : b ∈ t₁ := by
          rcases List.mem_cons.mp hb with h | h
          · exact absurd h.symm hne
          · exact h
        have hRab : R a b := (List.pairwise_cons.mp hp₁).1 b hbt₁
        exact hasym a b hRab hRba
      subst hab
      have htp : List.Perm t₁ t₂ := hp.cons_inv
      rw [ih t₂ htp (List.pairwise_cons.mp hp₁).2 (List.pairwise_cons.mp hp₂).2]

/-- Sorting by key is insensitive to the input order when the keys are
pairwise distinct. -/
theorem sortByKey_eq_of_perm {γ : Type} (l₁ l₂ : List (String × γ))
    (hp : List.Perm l₁ l₂) (hn : (l₁.map Prod.fst).Nodup) :
    sortByKey l₁ = sortByKey l₂ := by
  have hperm : List.Perm (sortByKey l₁) (sortByKey l₂) :=
    ((sortByKey_perm l₁).trans hp).trans (sortByKey_perm l₂).symm
  have hn₁ : ((sortByKey l₁).map Prod.fst).Nodup :=
    (((sortByKey_perm l₁).map Prod.fst).nodup_iff).mpr hn
  have hn₂ : ((sortByKey l₂).map Prod.fst).Nodup :=
    ((hperm.map Prod.fst).nodup_iff).mp hn₁
  have hstrict : ∀ (l : List (String × γ)), List.Pairwise keyLe l →
      (l.map Prod.fst).Nodup → l.Pairwise (fun a b => keyLe a b ∧ a.1 ≠ b.1) := by
    intro l hle hnd
    have hne : l.Pairwise (fun a b : String × γ => a.1 ≠ b.1) := List.pairwise_map.mp hnd
    exact hle.and hne
  refine eq_of_perm_of_pairwise_asymm ?_ _ _ hperm
    (hstrict _ (sortByKey_sorted l₁) hn₁) (hstrict _ (sortByKey_sorted l₂) hn₂)
  intro a b hab hba
  exact hab.2 (strLe_antisymm hab.1 hba.1)

/-- Dict entries serialized from an association list. -/
theorem dumpEntries_ofList (indent : Option Nat) (level : Nat)
    (l : List (String × Json)) :
    JsonObj.dumpEntries indent level (JsonObj.ofList l) =
      l.map (fun kv => (kv.1, Json.dump indent level kv.2)) := by
  induction l with
  | nil => rfl
  | cons kv tl ih =>
    cases kv
    simp [JsonObj.ofList, JsonObj.dumpEntries, ih]

/-- Dict entries are the value-serialized association list. -/
theorem dumpEntries_eq_map_toList (indent : Option Nat) (level : Nat) :
    ∀ (o : JsonObj),
      JsonObj.dumpEntries indent level o =
        o.toList.map (fun kv => (kv.1, Json.dump indent level kv.2))
  | .nil => rfl
  | .cons k v tl => by
    simp [JsonObj.dumpEntries, JsonObj.toList,
      dumpEntries_eq_map_toList indent level tl]

/-- Inserting into a sorted list commutes with a key-preserving map. -/
theorem orderedInsert_map_keyPreserving {α β : Type} (g : α → β)
    (a : String × α) :
    ∀ (l : List (String × α)),
      List.orderedInsert keyLe (a.1, g a.2)
          (l.map (fun kv => (kv.1, g kv.2))) =
        (List.orderedInsert keyLe a l).map (fun kv => (kv.1, g kv.2)) := by
  intro l
  induction l with
  | nil => rfl
  | cons b tl ih =>
    by_cases h : keyLe a b
    · have h' : keyLe (a.1, g a.2) (b.1, g b.2) := h
      simp [List.orderedInsert, h, h']
    · have h' : ¬ keyLe (a.1, g a.2) (b.1, g b.2) := h
      simp [List.orderedInsert, h, h', ih]

/-- Sorting by key commutes with a key-preserving map of the values. -/
theorem sortByKey_map_keyPreserving {α β : Type} (g : α → β) :
    ∀ (l : List (String × α)),
      sortByKey (l.map (fun kv => (kv.1, g kv.2))) =
        (sortByKey l).map (fun kv => (kv.1, g kv.2)) := by
  intro l
  induction l with
  | nil => rfl
  | cons a tl ih =>
    show List.orderedInsert keyLe (a.1, g a.2) (sortByKey (tl.map _)) = _
    rw [ih]
    exact orderedInsert_map_keyPreserving g a (sortByKey tl)

/-- Sorting by key is idempotent. -/
theorem sortByKey_idem {γ : Type} (l : List (String × γ)) :
    sortByKey (sortByKey l) = sortByKey l :=
  List.Sorted.insertionSort_eq (sortByKey_sorted l)

/-- Two dicts whose sorted serialized entries coincide serialize alike. -/
theorem Json.dump_obj_congr (indent : Option Nat) (level : Nat) :
    ∀ (o₁ o₂ : JsonObj),
      sortByKey (JsonObj.dumpEntries indent (level + 1) o₁) =
        sortByKey (JsonObj.dumpEntries indent (level + 1) o₂) →
      Json.dump indent level (.obj o₁) = Json.dump indent level (.obj o₂)
  | .nil, .nil, _ => rfl
  | .nil, .cons k v tl, h => by
    exfalso
    have h1 : (sortByKey (JsonObj.dumpEntries indent (level + 1) JsonObj.nil)).length = 0 := rfl
    rw [h, (sortByKey_perm _).length_eq] at h1
    simp [JsonObj.dumpEntries] at h1
  | .cons k v tl, .nil, h => by
    exfalso
    have h1 : (sortByKey (JsonObj.dumpEntries indent (level + 1) JsonObj.nil)).length = 0 := rfl
    rw [← h, (sortByKey_perm _).length_eq] at h1
    simp [JsonObj.dumpEntries] at h1
  | .cons k₁ v₁ t₁, .cons k₂ v₂ t₂, h => by
    simp only [Json.dump]
    rw [h]

mutual

/-- The serializer does not distinguish a value from its key-order normal
form: dict entries get sorted by key during serialization anyway. -/
theorem Json.dump_deepSort (indent : Option Nat) (level : Nat) :
    ∀ (x : Json), Json.dump indent level (Json.deepSort x) = Json.dump indent level x
  | .null => rfl
  | .bool b => rfl
  | .num n => rfl
  | .str s => rfl
  | .arr .nil => rfl
  | .arr (.cons x xs) => by
    have h := JsonList.dumpItems_deepSort indent (level + 1) (JsonList.cons x xs)
    simp only [Json.deepSort, JsonList.deepSortList] at h ⊢
    simp only [Json.dump]
    rw [show JsonList.dumpItems indent (level + 1)
        (JsonList.cons (Json.deepSort x) (JsonList.deepSortList xs)) =
      JsonList.dumpItems indent (level + 1) (JsonList.cons x xs) from h]
  | .obj kvs => by
    have hvals := JsonObj.dumpEntries_deepSort indent (level + 1) kvs
    have hkey :
        sortByKey (JsonObj.dumpEntries indent (level + 1)
          (JsonObj.ofList (sortByKey (JsonObj.deepSortVals kvs).toList))) =
        sortByKey (JsonObj.dumpEntries indent (level + 1) kvs) := by
      rw [dumpEntries_ofList]
      rw [sortByKey_map_keyPreserving (Json.dump indent (level + 1))]
      rw [sortByKey_idem]
      rw [← sortByKey_map_keyPreserving (Json.dump indent (level + 1))]
      rw [← dumpEntries_eq_map_toList]
      rw [hvals]
    exact Json.dump_obj_congr indent level _ kvs hkey

/-- dumpItems is insensitive to deepSort of the elements. -/
theorem JsonList.dumpItems_deepSort (indent : Option Nat) (level : Nat) :
    ∀ (xs : JsonList),
      JsonList.dumpItems indent level (JsonList.deepSortList xs) =
        JsonList.dumpItems indent level xs
  | .nil => rfl
  | .cons x xs => by
    simp only [JsonList.deepSortList, JsonList.dumpItems]
    rw [Json.dump_deepSort indent level x, JsonList.dumpItems_deepSort indent level xs]

/-- dumpEntries is insensitive to deepSort of the values. -/
theorem JsonObj.dumpEntries_deepSort (indent : Option Nat) (level : Nat) :
    ∀ (kvs : JsonObj),
      JsonObj.dumpEntries indent level (JsonObj.deepSortVals kvs) =
        JsonObj.dumpEntries indent level kvs
  | .nil => rfl
  | .cons k v tl => by
    simp only [JsonObj.deepSortVals, JsonObj.dumpEntries]
    rw [Json.dump_deepSort indent level v, JsonObj.dumpEntries_deepSort indent level tl]

end

/-- Claim C5: payloads that differ only in the designated volatile fields
(at any depth inside dicts) or only in dict key order have equal content
hashes, for every digest function: canonicalization strips volatile keys
recursively and serializes with sorted keys, so the canonical serializations
coincide.  Differing only in volatile fields or key order is formalized as
equality of the key-order normal forms after stripping. -/
theorem C5_content_hash_invariance (digest : String → String)
    (volatile_fields : Option (List String)) (A B : Json)
    (h : Json.deepSort (Json.strip_volatile_fields
            (volatile_fields.getD DEFAULT_VOLATILE_FIELDS) A) =
         Json.deepSort (Json.strip_volatile_fields
            (volatile_fields.getD DEFAULT_VOLATILE_FIELDS) B)) :
    compute_content_hash_from_data digest A volatile_fields =
      compute_content_hash_from_data digest B volatile_fields := by
  have hd : Json.dump none 0 (Json.strip_volatile_fields
        (volatile_fields.getD DEFAULT_VOLATILE_FIELDS) A) =
      Json.dump none 0 (Json.strip_volatile_fields
        (volatile_fields.getD DEFAULT_VOLATILE_FIELDS) B) := by
    rw [← Json.dump_deepSort none 0, h, Json.dump_deepSort none 0]
  simp [compute_content_hash_from_data, canonicalize_json, hd]

/-- Witness for C5_content_hash_invariance at a concrete input. -/
theorem C5_witness :
    Json.deepSort (Json.strip_volatile_fields
        ((none : Option (List String)).getD DEFAULT_VOLATILE_FIELDS) c5PayloadA) =
      Json.deepSort (Json.strip_volatile_fields
        ((none : Option (List String)).getD DEFAULT_VOLATILE_FIELDS) c5PayloadB) ∧
    compute_content_hash_from_data (fun s => s) c5PayloadA none =
      compute_content_hash_from_data (fun s => s) c5PayloadB none :=
  ⟨rfl, C5_content_hash_invariance (fun s => s) none c5PayloadA c5PayloadB rfl⟩

theorem JsonObj.get_setKey_self : ∀ (o : JsonObj) (k : String) (v : Json),
    (o.setKey k v).get k = some v
  | .nil, k, v => by simp [JsonObj.setKey, JsonObj.get]
  | .cons k0 v0 tl, k, v => by
    by_cases h : k0 = k <;>
      simp [JsonObj.setKey, JsonObj.get, h, JsonObj.get_setKey_self tl k v]

theorem JsonObj.setKey_setKey : ∀ (o : JsonObj) (k : String) (v w : Json),
    (o.setKey k v).setKey k w = o.setKey k w
  | .nil, k, v, w => by simp [JsonObj.setKey]
  | .cons k0 v0 tl, k, v, w => by
    by_cases h : k0 = k <;>
      simp [JsonObj.setKey, h, JsonObj.setKey_setKey tl k v w]

/-- Sort-key computation succeeds, with a permuted key list, on every
permutation of a document list on which it succeeds. -/
theorem docsWithKeys_perm {l₁ l₂ : List Json} (hp : List.Perm l₁ l₂) :
    ∀ {r₁ : List (String × Json)}, docsWithKeys l₁ = some r₁ →
      ∃ r₂, docsWithKeys l₂ = some r₂ ∧ List.Perm r₁ r₂ := by
  induction hp with
  | nil =>
    intro r₁ h
    exact ⟨r₁, h, List.Perm.refl _⟩
  | @cons d l₁t l₂t _ ih =>
    intro r₁ h
    simp only [docsWithKeys] at h
    cases hk : docSortKey d with
    | none => rw [hk] at h; exact absurd h (by simp)
    | some k =>
      rw [hk] at h
      cases hds : docsWithKeys l₁t with
      | none => rw [hds] at h; exact absurd h (by simp)
      | some rest =>
        rw [hds] at h
        obtain ⟨r₂, hr₂, hperm⟩ := ih hds
        refine ⟨(k, d) :: r₂, ?_, ?_⟩
        · simp [docsWithKeys, hk, hr₂]
        · have hr : r₁ = (k, d) :: rest := by simpa using h.symm
          rw [hr]
          exact List.Perm.cons _ hperm
  | swap x y l =>
    intro r₁ h
    simp only [docsWithKeys] at h
    cases hky : docSortKey y with
    | none => rw [hky] at h; exact absurd h (by simp)
    | some ky =>
      rw [hky] at h
      cases hkx : docSortKey x with
      | none =>
        rw [hkx] at h
        exact absurd h (by cases docsWithKeys l <;> simp)
      | some kx =>
        rw [hkx] at h
        cases hl : docsWithKeys l with
        | none => rw [hl] at h; exact absurd h (by simp)
        | some rest =>
          rw [hl] at h
          have hr : r₁ = (ky, y) :: (kx, x) :: rest := by simpa using h.symm
          refine ⟨(kx, x) :: (ky, y) :: rest, ?_, ?_⟩
          · simp [docsWithKeys, hkx, hky, hl]
          · rw [hr]
            exact List.Perm.swap _ _ _
  | trans _ _ ih₁ ih₂ =>
    intro r₁ h
    obtain ⟨r₂, hr₂, hp₁⟩ := ih₁ h
    obtain ⟨r₃, hr₃, hp₂⟩ := ih₂ hr₂
    exact ⟨r₃, hr₃, hp₁.trans hp₂⟩

/-- Claim C6 (corrected): the content hash of the combined-index work item
is invariant under permutation of the document list — amended — provided the
File sort keys of the documents are pairwise distinct, since Python uses a
stable sort: two distinct documents sharing one filename keep their relative
input order, which the counterexample below exploits. -/
theorem C6_index_hash_order_invariant (digest : String → String) (payload : JsonObj)
    (name : String) (state_docs : List (String × JsonObj))
    (docs₁ docs₂ : List Json) (keyed₁ : List (String × Json))
    (hget : payload.get "MHA Documents" = some (Json.arr (JsonList.ofList docs₁)))
    (hperm : List.Perm docs₁ docs₂)
    (hkeys : docsWithKeys docs₁ = some keyed₁)
    (hnodup : (keyed₁.map Prod.fst).Nodup) :
    Option.map DocumentWorkItem.content_hash
        (build_index_work_item digest
          (payload.setKey "MHA Documents" (Json.arr (JsonList.ofList docs₂)))
          name state_docs) =
      Option.map DocumentWorkItem.content_hash
        (build_index_work_item digest payload name state_docs) := by
  obtain ⟨keyed₂, hkeys₂, hkperm⟩ := docsWithKeys_perm hperm hkeys
  have hsort : sortByKey keyed₂ = sortByKey keyed₁ :=
    (sortByKey_eq_of_perm keyed₁ keyed₂ hkperm hnodup).symm
  have hn₁ : normalize_combined_index_payload payload =
      some (payload.setKey "MHA Documents"
        (Json.arr (JsonList.ofList ((sortByKey keyed₁).map Prod.snd)))) := by
    simp [normalize_combined_index_payload, hget, JsonList.toList_ofList_elems, hkeys]
  have hn₂ : normalize_combined_index_payload
        (payload.setKey "MHA Documents" (Json.arr (JsonList.ofList docs₂))) =
      some (payload.setKey "MHA Documents"
        (Json.arr (JsonList.ofList ((sortByKey keyed₁).map Prod.snd)))) := by
    simp [normalize_combined_index_payload, JsonObj.get_setKey_self,
      JsonList.toList_ofList_elems, hkeys₂, hsort, JsonObj.setKey_setKey]
  simp [build_index_work_item, hn₁, hn₂]

/-- Claim C6 is false as stated: with two distinct documents sharing the
filename X.json, reversing the document list changes the index-level content
hash (exhibited with the identity digest): the stable sort keeps the input
order of equal keys, so the normalized payloads differ. -/
theorem C6_counterexample :
    Option.map DocumentWorkItem.content_hash
        (build_index_work_item (fun s => s) c6Payload1
          "MHA_Documents_Metadata_Index.json" []) ≠
      Option.map DocumentWorkItem.content_hash
        (build_index_work_item (fun s => s) c6Payload2
          "MHA_Documents_Metadata_Index.json" []) := by
  decide

/-- Witness for C6_index_hash_order_invariant at a concrete input: the
scenario of the claim, a combined index listing A.json and B.json reversed,
with the identity digest. -/
theorem C6_witness :
    Option.map DocumentWorkItem.content_hash
        (build_index_work_item (fun s => s)
          (c6wPayload.setKey "MHA Documents" (Json.arr (JsonList.ofList [c6wDocB, c6wDocA])))
          "MHA_Documents_Metadata_Index.json" []) =
      Option.map DocumentWorkItem.content_hash
        (build_index_work_item (fun s => s) c6wPayload
          "MHA_Documents_Metadata_Index.json" []) :=
  C6_index_hash_order_invariant (fun s => s) c6wPayload
    "MHA_Documents_Metadata_Index.json" [] [c6wDocA, c6wDocB] [c6wDocB, c6wDocA]
    [("A.json", c6wDocA), ("B.json", c6wDocB)] rfl
    (List.Perm.swap c6wDocB c6wDocA []) rfl (by decide)

mutual

/-- Induction principle for Json with list and dict premises phrased over
the converted Lean lists. -/
theorem Json.inductionAux (P : Json → Prop)
    (hnull : P .null) (hbool : ∀ b, P (.bool b)) (hnum : ∀ n, P (.num n))
    (hstr : ∀ s, P (.str s))
    (harr : ∀ xs : JsonList, (∀ x ∈ xs.toList, P x) → P (.arr xs))
    (hobj : ∀ kvs : JsonObj, (∀ kv ∈ kvs.toList, P kv.2) → P (.obj kvs)) :
    ∀ x, P x
  | .null => hnull
  | .bool b => hbool b
  | .num n => hnum n
  | .str s => hstr s
  | .arr xs => harr xs (JsonList.inductionAuxElems P hnull hbool hnum hstr harr hobj xs)
  | .obj kvs => hobj kvs (JsonObj.inductionAuxEntries P hnull hbool hnum hstr harr hobj kvs)

theorem JsonList.inductionAuxElems (P : Json → Prop)
    (hnull : P .null) (hbool : ∀ b, P (.bool b)) (hnum : ∀ n, P (.num n))
    (hstr : ∀ s, P (.str s))
    (harr : ∀ xs : JsonList, (∀ x ∈ xs.toList, P x) → P (.arr xs))
    (hobj : ∀ kvs : JsonObj, (∀ kv ∈ kvs.toList, P kv.2) → P (.obj kvs)) :
    ∀ xs : JsonList, ∀ x ∈ xs.toList, P x
  | .nil => by intro x hx; simp [JsonList.toList] at hx
  | .cons y ys => by
    intro x hx
    rcases List.mem_cons.mp hx with h | h
    · exact h ▸ Json.inductionAux P hnull hbool hnum hstr harr hobj y
    · exact JsonList.inductionAuxElems P hnull hbool hnum hstr harr hobj ys x h

theorem JsonObj.inductionAuxEntries (P : Json → Prop)
    (hnull : P .null) (hbool : ∀ b, P (.bool b)) (hnum : ∀ n, P (.num n))
    (hstr : ∀ s, P (.str s))
    (harr : ∀ xs : JsonList, (∀ x ∈ xs.toList, P x) → P (.arr xs))
    (hobj : ∀ kvs : JsonObj, (∀ kv ∈ kvs.toList, P kv.2) → P (.obj kvs)) :
    ∀ kvs : JsonObj, ∀ kv ∈ kvs.toList, P kv.2
  | .nil => by intro kv hkv; simp [JsonObj.toList] at hkv
  | .cons k v tl => by
    intro kv hkv
    rcases List.mem_cons.mp hkv with h | h
    · exact h ▸ Json.inductionAux P hnull hbool hnum hstr harr hobj v
    · exact JsonObj.inductionAuxEntries P hnull hbool hnum hstr harr hobj tl kv h

end

theorem skipWs_not_ws {c : Char} (l : List Char) (h : isWs c = false) :
    skipWs (c :: l) = c :: l := by
  simp [skipWs, h]

theorem skipWs_ws {c : Char} (l : List Char) (h : isWs c = true) :
    skipWs (c :: l) = skipWs l := by
  simp [skipWs, h]

theorem skipWs_spaces (n : Nat) (l : List Char) : skipWs (spaces n ++ l) = skipWs l := by
  induction n with
  | zero => rfl
  | succ m ih => simpa [spaces, skipWs] using ih

/-- The digit characters have the expected code points. -/
theorem digitChar_toNat {n : Nat} (h : n < 10) : (digitChar n).toNat = 48 + n := by
  interval_cases n <;> rfl

theorem isDigitChar_digitChar {n : Nat} (h : n < 10) : isDigitChar (digitChar n) = true := by
  interval_cases n <;> rfl

theorem hexVal_hexDigit {n : Nat} (h : n < 16) : hexVal (hexDigit n) = some n := by
  interval_cases n <;> rfl

/-- The parser inverts the escaping of one string body. -/
theorem parseStringBody_escape :
    ∀ (s : List Char) (rest : List Char),
      parseStringBody (escapeChars s ++ '"' :: rest) = some (s, rest)
  | [], rest => by
    rw [show escapeChars [] ++ '"' :: rest = '"' :: rest from rfl, parseStringBody.eq_def]
    simp
  | c :: cs, rest => by
    have ih := parseStringBody_escape cs rest
    by_cases h1 : c = '"'
    · subst h1
      rw [show escapeChars ('"' :: cs) ++ '"' :: rest =
        '\\' :: '"' :: (escapeChars cs ++ '"' :: rest) from rfl, parseStringBody.eq_def]
      simp [ih]
    · by_cases h2 : c = '\\'
      · subst h2
        rw [show escapeChars ('\\' :: cs) ++ '"' :: rest =
          '\\' :: '\\' :: (escapeChars cs ++ '"' :: rest) from rfl, parseStringBody.eq_def]
        simp [ih]
      · by_cases h3 : c = '\x08'
        · subst h3
          rw [show escapeChars ('\x08' :: cs) ++ '"' :: rest =
            '\\' :: 'b' :: (escapeChars cs ++ '"' :: rest) from rfl, parseStringBody.eq_def]
          simp [ih]
        · by_cases h4 : c = '\x0c'
          · subst h4
            rw [show escapeChars ('\x0c' :: cs) ++ '"' :: rest =
              '\\' :: 'f' :: (escapeChars cs ++ '"' :: rest) from rfl, parseStringBody.eq_def]
            simp [ih]
          · by_cases h5 : c = '\n'
            · subst h5
              rw [show escapeChars ('\n' :: cs) ++ '"' :: rest =
                '\\' :: 'n' :: (escapeChars cs ++ '"' :: rest) from rfl, parseStringBody.eq_def]
              simp [ih]
            · by_cases h6 : c = '\r'
              · subst h6
                rw [show escapeChars ('\r' :: cs) ++ '"' :: rest =
                  '\\' :: 'r' :: (escapeChars cs ++ '"' :: rest) from rfl, parseStringBody.eq_def]
                simp [ih]
              · by_cases h7 : c = '\t'
                · subst h7
                  rw [show escapeChars ('\t' :: cs) ++ '"' :: rest =
                    '\\' :: 't' :: (escapeChars cs ++ '"' :: rest) from rfl, parseStringBody.eq_def]
                  simp [ih]
                · by_cases h8 : c.toNat < 0x20
                  · have hchain : escapeChars (c :: cs) ++ '"' :: rest =
                        '\\' :: 'u' :: '0' :: '0' :: hexDigit (c.toNat / 16) ::
                          hexDigit (c.toNat % 16) :: (escapeChars cs ++ '"' :: rest) := by
                      simp [escapeChars, escapeChar, h1, h2, h3, h4, h5, h6, h7, h8]
                    have hd1 : c.toNat / 16 < 16 := by omega
                    have hd2 : c.toNat % 16 < 16 := by omega
                    rw [hchain, parseStringBody.eq_def]
                    simp [show hexVal '0' = some 0 from rfl, hexVal_hexDigit hd1,
                      hexVal_hexDigit hd2,
                      show ((0 * 16 + 0) * 16 + c.toNat / 16) * 16 + c.toNat % 16
                        = c.toNat from by omega,
                      show c.toNat / 16 * 16 + c.toNat % 16 = c.toNat from by omega,
                      show c.toNat < 55296 from by omega, ih, Char.ofNat_toNat]
                  · have hchain : escapeChars (c :: cs) ++ '"' :: rest =
                        c :: (escapeChars cs ++ '"' :: rest) := by
                      simp [escapeChars, escapeChar, h1, h2, h3, h4, h5, h6, h7, h8]
                    rw [hchain, parseStringBody.eq_def]
                    simp [h1, h2, h8, ih]

theorem natDigitsGo_eq_natRepr_append :
    ∀ (n : Nat), ∀ (fuel : Nat), n < fuel → ∀ (acc : List Char),
      natDigitsGo fuel n acc = natRepr n ++ acc := by
  intro n
  induction n using Nat.strong_induction_on with
  | _ n ih =>
    intro fuel hfuel acc
    match fuel, hfuel with
    | f + 1, hfuel =>
      by_cases h : n < 10
      · rw [natDigitsGo.eq_def]
        simp only [h, if_true, ite_true]
        rw [natRepr, natDigitsGo.eq_def]
        simp [h]
      · have hdiv : n / 10 < n := Nat.div_lt_self (by omega) (by omega)
        rw [natDigitsGo.eq_def]
        simp only [h, if_false, ite_false]
        rw [ih (n / 10) hdiv f (by omega) (digitChar (n % 10) :: acc)]
        conv_rhs => rw [natRepr, natDigitsGo.eq_def]
        simp only [h, if_false, ite_false]
        rw [ih (n / 10) hdiv n (by omega) [digitChar (n % 10)]]
        simp

/-- The decimal representation of n at least 10 splits into the
representation of n / 10 followed by the last digit. -/
theorem natRepr_split {n : Nat} (h : ¬ n < 10) :
    natRepr n = natRepr (n / 10) ++ [digitChar (n % 10)] := by
  have hdiv : n / 10 < n := Nat.div_lt_self (by omega) (by omega)
  rw [natRepr, natDigitsGo.eq_def]
  simp only [h, if_false, ite_false]
  exact natDigitsGo_eq_natRepr_append (n / 10) n (by omega) [digitChar (n % 10)]

theorem natRepr_small {n : Nat} (h : n < 10) : natRepr n = [digitChar n] := by
  rw [natRepr, natDigitsGo.eq_def]
  simp [h]

theorem natRepr_all_digits : ∀ (n : Nat), ∀ c ∈ natRepr n, isDigitChar c = true := by
  intro n
  induction n using Nat.strong_induction_on with
  | _ n ih =>
    intro c hc
    by_cases h : n < 10
    · rw [natRepr_small h] at hc
      rcases List.mem_cons.mp hc with h1 | h1
      · exact h1 ▸ isDigitChar_digitChar (by omega)
      · simp at h1
    · rw [natRepr_split h] at hc
      rcases List.mem_append.mp hc with h1 | h1
      · exact ih (n / 10) (Nat.div_lt_self (by omega) (by omega)) c h1
      · rcases List.mem_cons.mp h1 with h2 | h2
        · exact h2 ▸ isDigitChar_digitChar (Nat.mod_lt _ (by omega))
        · simp at h2

theorem natRepr_ne_nil (n : Nat) : natRepr n ≠ [] := by
  by_cases h : n < 10
  · rw [natRepr_small h]; simp
  · rw [natRepr_split h]; simp

theorem parseNatDigits_digits_append :
    ∀ (ds : List Char), (∀ c ∈ ds, isDigitChar c = true) → ∀ (rest : List Char) (acc : Nat),
      parseNatDigits (ds ++ rest) acc =
        parseNatDigits rest (ds.foldl (fun a c => a * 10 + (c.toNat - 48)) acc) := by
  intro ds
  induction ds with
  | nil => intro _ rest acc; simp
  | cons c cs ih =>
    intro hall rest acc
    have hc : isDigitChar c = true := hall c (List.mem_cons_self _ _)
    rw [List.cons_append, parseNatDigits.eq_def]
    simp only [hc, if_true, ite_true]
    rw [ih (fun d hd => hall d (List.mem_cons_of_mem _ hd)) rest _]
    simp

theorem parseNatDigits_stop {rest : List Char}
    (h : rest = [] ∨ ∃ c cs, rest = c :: cs ∧ isDigitChar c = false) (acc : Nat) :
    parseNatDigits rest acc = (acc, rest) := by
  rcases h with h | ⟨c, cs, hr, hc⟩
  · subst h; rfl
  · subst hr
    rw [parseNatDigits.eq_def]
    simp [hc]

theorem natRepr_foldl : ∀ (n : Nat) (acc : Nat),
    (natRepr n).foldl (fun a c => a * 10 + (c.toNat - 48)) acc =
      acc * 10 ^ (natRepr n).length + n := by
  intro n
  induction n using Nat.strong_induction_on with
  | _ n ih =>
    intro acc
    by_cases h : n < 10
    · rw [natRepr_small h]
      simp [digitChar_toNat h]
    · rw [natRepr_split h, List.foldl_append, List.length_append]
      rw [ih (n / 10) (Nat.div_lt_self (by omega) (by omega)) acc]
      simp only [List.foldl_cons, List.foldl_nil, List.length_cons, List.length_nil]
      rw [digitChar_toNat (Nat.mod_lt _ (by omega))]
      have hrec : n / 10 * 10 + n % 10 = n := by omega
      rw [pow_succ]
      ring_nf
      omega

theorem numSafe_not_digit {rest : List Char} (h : numSafe rest = true) :
    rest = [] ∨ ∃ c cs, rest = c :: cs ∧ isDigitChar c = false := by
  cases rest with
  | nil => exact Or.inl rfl
  | cons c cs =>
    refine Or.inr ⟨c, cs, rfl, ?_⟩
    simp [numSafe] at h
    exact h.1.1.1

theorem numSafe_not_float {rest : List Char} (h : numSafe rest = true) :
    isFloatCont rest = false := by
  cases rest with
  | nil => rfl
  | cons c cs =>
    simp [numSafe] at h
    obtain ⟨⟨⟨_, h2⟩, h3⟩, h4⟩ := h
    simp [isFloatCont, h2, h3, h4]

theorem parseNatDigits_natRepr (n : Nat) {rest : List Char} (h : numSafe rest = true) :
    parseNatDigits (natRepr n ++ rest) 0 = (n, rest) := by
  rw [parseNatDigits_digits_append (natRepr n) (natRepr_all_digits n) rest 0]
  rw [natRepr_foldl n 0]
  simp [parseNatDigits_stop (numSafe_not_digit h)]

/-- The parser inverts the decimal serialization of an integer. -/
theorem parseInt_intRepr :
    ∀ (n : Int) (rest : List Char), numSafe rest = true →
      parseInt (intRepr n ++ rest) = some (n, rest) := by
  intro n rest h
  cases n with
  | ofNat m =>
    obtain ⟨c, cs, hcs⟩ : ∃ c cs, natRepr m = c :: cs := by
      cases hr : natRepr m with
      | nil => exact absurd hr (natRepr_ne_nil m)
      | cons c cs => exact ⟨c, cs, rfl⟩
    have hd : isDigitChar c = true := natRepr_all_digits m c (by rw [hcs]; simp)
    have hnotminus : (c = '-') = False := by
      simp only [eq_iff_iff, iff_false]
      intro hc
      rw [hc] at hd
      exact absurd hd (by decide)
    rw [show intRepr (Int.ofNat m) = natRepr m from rfl, hcs, List.cons_append,
      parseInt.eq_def]
    simp only [hnotminus, if_false, ite_false, hd, if_true, ite_true]
    rw [show c :: (cs ++ rest) = (c :: cs) ++ rest from rfl, ← hcs]
    rw [parseNatDigits_natRepr m h]
    simp [numSafe_not_float h]
  | negSucc m =>
    obtain ⟨c, cs, hcs⟩ : ∃ c cs, natRepr (m + 1) = c :: cs := by
      cases hr : natRepr (m + 1) with
      | nil => exact absurd hr (natRepr_ne_nil (m + 1))
      | cons c cs => exact ⟨c, cs, rfl⟩
    have hd : isDigitChar c = true := natRepr_all_digits (m + 1) c (by rw [hcs]; simp)
    rw [show intRepr (Int.negSucc m) = '-' :: natRepr (m + 1) from rfl, List.cons_append,
      parseInt.eq_def]
    simp only [hcs, List.cons_append]
    simp only [show ('-' = '-') = True from by simp, if_true, ite_true, hd]
    rw [show c :: (cs ++ rest) = (c :: cs) ++ rest from rfl, ← hcs]
    rw [parseNatDigits_natRepr (m + 1) h]
    simp [numSafe_not_float h, Int.negSucc_eq]

theorem skipWs_idem : ∀ (l : List Char), skipWs (skipWs l) = skipWs l
  | [] => rfl
  | c :: cs => by
    by_cases h : isWs c = true
    · rw [skipWs_ws cs h]
      exact skipWs_idem cs
    · rw [skipWs_not_ws cs (by simpa using h), skipWs_not_ws cs (by simpa using h)]

/-- The value parser only looks at its input after leading whitespace. -/
theorem parseValue_skipWs (fuel : Nat) (input : List Char) :
    parseValue fuel input = parseValue fuel (skipWs input) := by
  cases fuel with
  | zero => rfl
  | succ f =>
    simp only [parseValue]
    rw [skipWs_idem]

theorem skipWs_closePad (ind : Option Nat) (lvl : Nat) (l : List Char) :
    skipWs (closePad ind lvl ++ l) = skipWs l := by
  cases ind with
  | none => rfl
  | some n =>
    show skipWs ('\n' :: (spaces (n * lvl) ++ l)) = skipWs l
    rw [skipWs_ws _ (by decide)]
    exact skipWs_spaces _ _

theorem itemSep_eq (ind : Option Nat) (lvl : Nat) :
    itemSep ind lvl = ',' :: sepPad ind lvl := by
  cases ind <;> rfl

theorem skipWs_sepPad (ind : Option Nat) (lvl : Nat) (l : List Char) :
    skipWs (sepPad ind lvl ++ l) = skipWs l := by
  cases ind with
  | none => rfl
  | some n =>
    show skipWs ('\n' :: (spaces (n * (lvl + 1)) ++ l)) = skipWs l
    rw [skipWs_ws _ (by decide)]
    exact skipWs_spaces _ _

theorem skipWs_kvPad (ind : Option Nat) (l : List Char) :
    skipWs (kvPad ind ++ l) = skipWs l := by
  cases ind with
  | none => rfl
  | some n =>
    show skipWs (' ' :: l) = skipWs l
    rw [skipWs_ws _ (by decide)]

theorem digit_head_good {c : Char} (hd : isDigitChar c = true) :
    isWs c = false ∧ (c = ']') = False ∧ (c = '\x7d') = False ∧ (c = ',') = False ∧
      numSafe (c :: []) = false := by
  have h48 : (48 ≤ c.toNat && c.toNat ≤ 57) = true := hd
  refine ⟨?_, ?_, ?_, ?_, by simp [numSafe, hd]⟩
  · simp only [isWs]
    have h1 : (c = ' ') = False := by
      simp only [eq_iff_iff, iff_false]; intro h; rw [h] at h48; exact absurd h48 (by decide)
    have h2 : (c = '\t') = False := by
      simp only [eq_iff_iff, iff_false]; intro h; rw [h] at h48; exact absurd h48 (by decide)
    have h3 : (c = '\n') = False := by
      simp only [eq_iff_iff, iff_false]; intro h; rw [h] at h48; exact absurd h48 (by decide)
    have h4 : (c = '\r') = False := by
      simp only [eq_iff_iff, iff_false]; intro h; rw [h] at h48; exact absurd h48 (by decide)
    simp [h1, h2, h3, h4]
  · simp only [eq_iff_iff, iff_false]; intro h; rw [h] at h48; exact absurd h48 (by decide)
  · simp only [eq_iff_iff, iff_false]; intro h; rw [h] at h48; exact absurd h48 (by decide)
  · simp only [eq_iff_iff, iff_false]; intro h; rw [h] at h48; exact absurd h48 (by decide)

/-- Every serialized value starts with a character that is neither
whitespace nor a closing bracket nor a comma. -/
theorem dump_head_cons (ind : Option Nat) (lvl : Nat) (x : Json) :
    ∃ c cs, Json.dump ind lvl x = c :: cs ∧ isWs c = false ∧
      (c = ']') = False ∧ (c = '\x7d') = False ∧ (c = ',') = False := by
  cases x with
  | null => exact ⟨'n', _, rfl, by decide, by simp, by simp, by simp⟩
  | bool b =>
    cases b with
    | true => exact ⟨'t', _, rfl, by decide, by simp, by simp, by simp⟩
    | false => exact ⟨'f', _, rfl, by decide, by simp, by simp, by simp⟩
  | num n =>
    cases n with
    | ofNat m =>
      obtain ⟨c, cs, hcs⟩ : ∃ c cs, natRepr m = c :: cs := by
        cases hr : natRepr m with
        | nil => exact absurd hr (natRepr_ne_nil m)
        | cons c cs => exact ⟨c, cs, rfl⟩
      have hd := natRepr_all_digits m c (by rw [hcs]; simp)
      obtain ⟨hw, hb, hbr, hc, _⟩ := digit_head_good hd
      exact ⟨c, cs, hcs, hw, hb, hbr, hc⟩
    | negSucc m =>
      exact ⟨'-', _, rfl, by decide, by simp, by simp, by simp⟩
  | str s => exact ⟨'"', _, rfl, by decide, by simp, by simp, by simp⟩
  | arr xs =>
    cases xs with
    | nil => exact ⟨'[', _, rfl, by decide, by simp, by simp, by simp⟩
    | cons y ys =>
      cases ind with
      | none => exact ⟨'[', _, rfl, by decide, by simp, by simp, by simp⟩
      | some n => exact ⟨'[', _, rfl, by decide, by simp, by simp, by simp⟩
  | obj kvs =>
    cases kvs with
    | nil => exact ⟨'\x7b', _, rfl, by decide, by simp, by simp, by simp⟩
    | cons k v tl =>
      cases ind with
      | none => exact ⟨'\x7b', _, rfl, by decide, by simp, by simp, by simp⟩
      | some n => exact ⟨'\x7b', _, rfl, by decide, by simp, by simp, by simp⟩

/-- A serialized value is safe to place before a number-terminating
context check: its head is never a digit continuation of the previous
token.  Here: the rest following any separator or closing bracket is
numSafe. -/
theorem numSafe_cons_of_sep {c : Char} (l : List Char)
    (h : c = ',' ∨ c = ']' ∨ c = '\x7d' ∨ isWs c = true) :
    numSafe (c :: l) = true := by
  rcases h with h | h | h | h
  · subst h; rfl
  · subst h; rfl
  · subst h; rfl
  · have h4 : ((c = ' ' ∨ c = '\t') ∨ c = '\n') ∨ c = '\r' := by
      simpa [isWs, Bool.or_eq_true, decide_eq_true_eq] using h
    rcases h4 with ⟨⟨h | h⟩ | h⟩ | h <;> (subst h; rfl)

theorem stringMkData (s : String) : String.mk s.data = s := by
  cases s
  rfl

theorem parseValue_pad (fuel : Nat) (p X : List Char)
    (hp : skipWs (p ++ X) = skipWs X) :
    parseValue fuel (p ++ X) = parseValue fuel X := by
  rw [parseValue_skipWs fuel (p ++ X), hp, ← parseValue_skipWs]

theorem parseElems_pad (fuel : Nat) (p X : List Char)
    (hp : skipWs (p ++ X) = skipWs X) :
    parseElems fuel (p ++ X) = parseElems fuel X := by
  cases fuel with
  | zero => rfl
  | succ f => simp only [parseElems]; rw [parseValue_pad f p X hp]

theorem parseMembers_pad (fuel : Nat) (p X : List Char)
    (hp : skipWs (p ++ X) = skipWs X) :
    parseMembers fuel (p ++ X) = parseMembers fuel X := by
  cases fuel with
  | zero => rfl
  | succ f => simp only [parseMembers]; rw [hp]

theorem parsesBack_null : ParsesBack Json.null := by
  intro fuel hfuel ind lvl rest hrest
  match fuel, hfuel with
  | f + 1, _ =>
    rw [show Json.dump ind lvl Json.null ++ rest = 'n' :: ('u' :: 'l' :: 'l' :: rest) from rfl]
    simp only [parseValue]
    rw [skipWs_not_ws _ (by decide)]
    rfl

theorem parsesBack_bool (b : Bool) : ParsesBack (Json.bool b) := by
  intro fuel hfuel ind lvl rest hrest
  match fuel, hfuel with
  | f + 1, _ =>
    cases b with
    | true =>
      rw [show Json.dump ind lvl (Json.bool true) ++ rest =
        't' :: ('r' :: 'u' :: 'e' :: rest) from rfl]
      simp only [parseValue]
      rw [skipWs_not_ws _ (by decide)]
      rfl
    | false =>
      rw [show Json.dump ind lvl (Json.bool false) ++ rest =
        'f' :: ('a' :: 'l' :: 's' :: 'e' :: rest) from rfl]
      simp only [parseValue]
      rw [skipWs_not_ws _ (by decide)]
      rfl

theorem parsesBack_str (s : String) : ParsesBack (Json.str s) := by
  intro fuel hfuel ind lvl rest hrest
  match fuel, hfuel with
  | f + 1, _ =>
    rw [show Json.dump ind lvl (Json.str s) ++ rest =
      '"' :: (escapeChars s.data ++ '"' :: rest) from by simp [Json.dump]]
    simp only [parseValue]
    rw [skipWs_not_ws _ (by decide)]
    simp [parseStringBody_escape s.data rest, stringMkData, Json.deepSort]

/-- The first character of a serialized integer is a digit or a minus sign,
hence none of the characters that select another parser branch. -/
theorem head_not_special {c : Char} (h : isDigitChar c = true ∨ c = '-') :
    isWs c = false ∧ (c = 'n') = False ∧ (c = 't') = False ∧ (c = 'f') = False ∧
      (c = '"') = False ∧ (c = '[') = False ∧ (c = '\x7b') = False := by
  rcases h with h | h
  · have h48 : (48 ≤ c.toNat && c.toNat ≤ 57) = true := h
    refine ⟨?_, ?_, ?_, ?_, ?_, ?_, ?_⟩
    · simp only [isWs]
      have h1 : (c = ' ') = False := by
        simp only [eq_iff_iff, iff_false]; intro hx; rw [hx] at h48; exact absurd h48 (by decide)
      have h2 : (c = '\t') = False := by
        simp only [eq_iff_iff, iff_false]; intro hx; rw [hx] at h48; exact absurd h48 (by decide)
      have h3 : (c = '\n') = False := by
        simp only [eq_iff_iff, iff_false]; intro hx; rw [hx] at h48; exact absurd h48 (by decide)
      have h4 : (c = '\r') = False := by
        simp only [eq_iff_iff, iff_false]; intro hx; rw [hx] at h48; exact absurd h48 (by decide)
      simp [h1, h2, h3, h4]
    all_goals
      simp only [eq_iff_iff, iff_false]; intro hx; rw [hx] at h48; exact absurd h48 (by decide)
  · subst h
    refine ⟨by decide, ?_, ?_, ?_, ?_, ?_, ?_⟩ <;> (simp only [eq_iff_iff, iff_false]; decide)

theorem parsesBack_num (n : Int) : ParsesBack (Json.num n) := by
  intro fuel hfuel ind lvl rest hrest
  match fuel, hfuel with
  | f + 1, _ =>
    obtain ⟨c, cs, hcs, hhead⟩ :
        ∃ c cs, intRepr n = c :: cs ∧ (isDigitChar c = true ∨ c = '-') := by
      cases n with
      | ofNat m =>
        obtain ⟨c, cs, hcs⟩ : ∃ c cs, natRepr m = c :: cs := by
          cases hr : natRepr m with
          | nil => exact absurd hr (natRepr_ne_nil m)
          | cons c cs => exact ⟨c, cs, rfl⟩
        exact ⟨c, cs, hcs, Or.inl (natRepr_all_digits m c (by rw [hcs]; simp))⟩
      | negSucc m => exact ⟨'-', natRepr (m + 1), rfl, Or.inr rfl⟩
    obtain ⟨hw, h1, h2, h3, h4, h5, h6⟩ := head_not_special hhead
    rw [show Json.dump ind lvl (Json.num n) = intRepr n from rfl, hcs, List.cons_append]
    simp only [parseValue]
    rw [skipWs_not_ws _ hw]
    simp only [h1, h2, h3, h4, h5, h6, if_false, ite_false]
    rw [show c :: (cs ++ rest) = (c :: cs) ++ rest from rfl, ← hcs,
      parseInt_intRepr n rest hrest]
    rfl

theorem numSafe_itemSep (ind : Option Nat) (lvl : Nat) (l : List Char) :
    numSafe (itemSep ind lvl ++ l) = true := by
  cases ind <;> rfl

theorem numSafe_closePad_bracket (ind : Option Nat) (lvl : Nat) (l : List Char) :
    numSafe (closePad ind lvl ++ ']' :: l) = true := by
  cases ind <;> rfl

theorem numSafe_closePad_brace (ind : Option Nat) (lvl : Nat) (l : List Char) :
    numSafe (closePad ind lvl ++ '\x7d' :: l) = true := by
  cases ind <;> rfl

/-- One unfolding step of the element parser once the first value is
known. -/
theorem parseElems_step (f : Nat) (input : List Char) (v : Json) (r1 : List Char)
    (hv : parseValue f input = some (v, r1)) :
    parseElems (f + 1) input =
      match skipWs r1 with
      | ',' :: r2 =>
        (match parseElems f r2 with
         | some (vs, r3) => some (JsonList.cons v vs, r3)
         | none => none)
      | ']' :: r2 => some (JsonList.cons v JsonList.nil, r2)
      | _ => none := by
  simp only [parseElems]
  rw [hv]

/-- The parser inverts the serialization of a nonempty array body: after the
items, the closing padding and bracket it returns the deep-sorted elements
and the input past the bracket. -/
theorem parseElems_dump (ind : Option Nat) (lvl : Nat) :
    ∀ (tl : JsonList) (x : Json),
      ParsesBack x →
      (∀ y ∈ tl.toList, ParsesBack y) →
      ∀ (fuel : Nat), JsonList.sizeList (JsonList.cons x tl) ≤ fuel →
      ∀ (rest : List Char),
        parseElems fuel
          (joinSep (itemSep ind lvl)
              (JsonList.dumpItems ind (lvl + 1) (JsonList.cons x tl)) ++
            closePad ind lvl ++ ']' :: rest) =
          some (JsonList.deepSortList (JsonList.cons x tl), rest)
  | .nil, x, hx, _, fuel, hfuel, rest => by
    cases fuel with
    | zero => simp only [JsonList.sizeList] at hfuel; omega
    | succ f =>
      have hsize : Json.size x ≤ f := by
        simp only [JsonList.sizeList] at hfuel; omega
      simp only [JsonList.dumpItems, joinSep]
      rw [List.append_assoc]
      have hv := hx f hsize ind (lvl + 1) (closePad ind lvl ++ ']' :: rest)
        (numSafe_closePad_bracket ind lvl rest)
      rw [parseElems_step f _ _ _ hv]
      rw [skipWs_closePad, skipWs_not_ws _ (by decide)]
      rfl
  | .cons y ys, x, hx, htl, fuel, hfuel, rest => by
    cases fuel with
    | zero => simp only [JsonList.sizeList] at hfuel; omega
    | succ f =>
      have hsize : Json.size x ≤ f := by
        simp only [JsonList.sizeList] at hfuel; omega
      have hsize2 : JsonList.sizeList (JsonList.cons y ys) ≤ f := by
        simp only [JsonList.sizeList] at hfuel ⊢; omega
      have hy : ParsesBack y := htl y (by simp [JsonList.toList])
      have hys : ∀ z ∈ ys.toList, ParsesBack z := fun z hz =>
        htl z (by simp [JsonList.toList]; exact Or.inr hz)
      rw [show joinSep (itemSep ind lvl)
          (JsonList.dumpItems ind (lvl + 1) (JsonList.cons x (JsonList.cons y ys))) =
        Json.dump ind (lvl + 1) x ++
          (itemSep ind lvl ++
            joinSep (itemSep ind lvl)
              (JsonList.dumpItems ind (lvl + 1) (JsonList.cons y ys))) from by
        rw [← List.append_assoc]; rfl]
      simp only [List.append_assoc]
      have hv := hx f hsize ind (lvl + 1)
        (itemSep ind lvl ++
          (joinSep (itemSep ind lvl)
              (JsonList.dumpItems ind (lvl + 1) (JsonList.cons y ys)) ++
            (closePad ind lvl ++ ']' :: rest)))
        (numSafe_itemSep ind lvl _)
      rw [parseElems_step f _ _ _ hv]
      nth_rewrite 1 [itemSep_eq]
      rw [List.cons_append, skipWs_not_ws _ (by decide)]
      show (match parseElems f
          (sepPad ind lvl ++
            (joinSep (itemSep ind lvl)
                (JsonList.dumpItems ind (lvl + 1) (JsonList.cons y ys)) ++
              (closePad ind lvl ++ ']' :: rest))) with
        | some (vs, r3) => some (JsonList.cons (Json.deepSort x) vs, r3)
        | none => none) =
        some (JsonList.deepSortList (JsonList.cons x (JsonList.cons y ys)), rest)
      rw [parseElems_pad f (sepPad ind lvl) _ (skipWs_sepPad ind lvl _)]
      rw [← List.append_assoc]
      rw [parseElems_dump ind lvl ys y hy hys f hsize2 rest]
      rfl

/-- One unfolding step of the member parser across a whole serialized
entry, once the inversion of the entry value is known. -/
theorem parseMembers_member (ind : Option Nat) (lvl : Nat) (f : Nat) (k : String) (v : Json)
    (TAIL : List Char)
    (hv : parseValue f (Json.dump ind (lvl + 1) v ++ TAIL) = some (Json.deepSort v, TAIL)) :
    parseMembers (f + 1) (entryChars ind (k, Json.dump ind (lvl + 1) v) ++ TAIL) =
      match skipWs TAIL with
      | ',' :: r4 =>
        (match parseMembers f r4 with
         | some (ms, r5) => some ((k, Json.deepSort v) :: ms, r5)
         | none => none)
      | '\x7d' :: r4 => some ([(k, Json.deepSort v)], r4)
      | _ => none := by
  simp only [parseMembers]
  rw [show entryChars ind (k, Json.dump ind (lvl + 1) v) ++ TAIL =
    '"' :: (escapeChars k.data ++ '"' ::
      (':' :: (kvPad ind ++ (Json.dump ind (lvl + 1) v ++ TAIL)))) from by
    cases ind <;> simp [entryChars, kvPad]]
  rw [skipWs_not_ws _ (by decide)]
  show (match parseStringBody (escapeChars k.data ++ '"' ::
      (':' :: (kvPad ind ++ (Json.dump ind (lvl + 1) v ++ TAIL)))) with
    | none => none
    | some (kchars, r1) =>
      match skipWs r1 with
      | ':' :: r2 =>
        (match parseValue f r2 with
         | none => none
         | some (w, r3) =>
           match skipWs r3 with
           | ',' :: r4 =>
             (match parseMembers f r4 with
              | some (ms, r5) => some ((String.mk kchars, w) :: ms, r5)
              | none => none)
           | '\x7d' :: r4 => some ([(String.mk kchars, w)], r4)
           | _ => none)
      | _ => none) = _
  rw [parseStringBody_escape k.data _]
  show (match skipWs (':' :: (kvPad ind ++ (Json.dump ind (lvl + 1) v ++ TAIL))) with
    | ':' :: r2 =>
      (match parseValue f r2 with
       | none => none
       | some (w, r3) =>
         match skipWs r3 with
         | ',' :: r4 =>
           (match parseMembers f r4 with
            | some (ms, r5) => some ((String.mk k.data, w) :: ms, r5)
            | none => none)
         | '\x7d' :: r4 => some ([(String.mk k.data, w)], r4)
         | _ => none)
    | _ => none) = _
  rw [skipWs_not_ws _ (by decide)]
  show (match parseValue f (kvPad ind ++ (Json.dump ind (lvl + 1) v ++ TAIL)) with
    | none => none
    | some (w, r3) =>
      match skipWs r3 with
      | ',' :: r4 =>
        (match parseMembers f r4 with
         | some (ms, r5) => some ((String.mk k.data, w) :: ms, r5)
         | none => none)
      | '\x7d' :: r4 => some ([(String.mk k.data, w)], r4)
      | _ => none) = _
  rw [parseValue_pad f (kvPad ind) _ (skipWs_kvPad ind _), hv, stringMkData]

/-- The parser inverts the serialization of a nonempty dict body: after the
entries, the closing padding and brace it returns the entries with
deep-sorted values, in text order, and the input past the brace. -/
theorem parseMembers_dump (ind : Option Nat) (lvl : Nat) :
    ∀ (L : List (String × Json)) (k : String) (v : Json),
      ParsesBack v →
      (∀ p ∈ L, ParsesBack p.2) →
      ∀ (fuel : Nat), pairsSize ((k, v) :: L) ≤ fuel →
      ∀ (rest : List Char),
        parseMembers fuel
          (joinSep (itemSep ind lvl)
              (((k, v) :: L).map (fun kv =>
                entryChars ind (kv.1, Json.dump ind (lvl + 1) kv.2))) ++
            closePad ind lvl ++ '\x7d' :: rest) =
          some (((k, v) :: L).map (fun kv => (kv.1, Json.deepSort kv.2)), rest)
  | [], k, v, hv, _, fuel, hfuel, rest => by
    cases fuel with
    | zero => simp only [pairsSize] at hfuel; omega
    | succ f =>
      have hsz : Json.size v ≤ f := by
        simp only [pairsSize] at hfuel; omega
      simp only [List.map, joinSep]
      rw [List.append_assoc]
      have hpv := hv f hsz ind (lvl + 1) (closePad ind lvl ++ '\x7d' :: rest)
        (numSafe_closePad_brace ind lvl rest)
      rw [parseMembers_member ind lvl f k v _ hpv]
      rw [skipWs_closePad, skipWs_not_ws _ (by decide)]
      rfl
  | (k2, v2) :: L2, k, v, hv, hL, fuel, hfuel, rest => by
    cases fuel with
    | zero => simp only [pairsSize] at hfuel; omega
    | succ f =>
      have hsz : Json.size v ≤ f := by
        simp only [pairsSize] at hfuel; omega
      have hsz2 : pairsSize ((k2, v2) :: L2) ≤ f := by
        simp only [pairsSize] at hfuel ⊢; omega
      have hv2 : ParsesBack v2 := hL (k2, v2) (by simp)
      have hL2 : ∀ p ∈ L2, ParsesBack p.2 := fun p hp => hL p (by simp [hp])
      rw [show joinSep (itemSep ind lvl)
          (((k, v) :: (k2, v2) :: L2).map (fun kv =>
            entryChars ind (kv.1, Json.dump ind (lvl + 1) kv.2))) =
        entryChars ind (k, Json.dump ind (lvl + 1) v) ++
          (itemSep ind lvl ++
            joinSep (itemSep ind lvl)
              (((k2, v2) :: L2).map (fun kv =>
                entryChars ind (kv.1, Json.dump ind (lvl + 1) kv.2)))) from by
        rw [← List.append_assoc]; rfl]
      simp only [List.append_assoc]
      have hpv := hv f hsz ind (lvl + 1)
        (itemSep ind lvl ++
          (joinSep (itemSep ind lvl)
              (((k2, v2) :: L2).map (fun kv =>
                entryChars ind (kv.1, Json.dump ind (lvl + 1) kv.2))) ++
            (closePad ind lvl ++ '\x7d' :: rest)))
        (numSafe_itemSep ind lvl _)
      rw [parseMembers_member ind lvl f k v _ hpv]
      nth_rewrite 1 [itemSep_eq]
      rw [List.cons_append, skipWs_not_ws _ (by decide)]
      show (match parseMembers f
          (sepPad ind lvl ++
            (joinSep (itemSep ind lvl)
                (((k2, v2) :: L2).map (fun kv =>
                  entryChars ind (kv.1, Json.dump ind (lvl + 1) kv.2))) ++
              (closePad ind lvl ++ '\x7d' :: rest))) with
        | some (ms, r5) => some ((k, Json.deepSort v) :: ms, r5)
        | none => none) = _
      rw [parseMembers_pad f (sepPad ind lvl) _ (skipWs_sepPad ind lvl _)]
      rw [← List.append_assoc]
      rw [parseMembers_dump ind lvl L2 k2 v2 hv2 hL2 f hsz2 rest]
      rfl

theorem wfList_mem : ∀ (xs : JsonList), JsonList.wfList xs = true →
    ∀ x ∈ xs.toList, Json.wf x = true
  | .nil, _, x, hx => by simp [JsonList.toList] at hx
  | .cons y ys, h, x, hx => by
    simp only [JsonList.wfList, Bool.and_eq_true] at h
    simp only [JsonList.toList, List.mem_cons] at hx
    rcases hx with hx | hx
    · exact hx ▸ h.1
    · exact wfList_mem ys h.2 x hx

theorem wfObj_mem : ∀ (kvs : JsonObj), JsonObj.wfObj kvs = true →
    ∀ kv ∈ kvs.toList, Json.wf kv.2 = true
  | .nil, _, kv, hkv => by simp [JsonObj.toList] at hkv
  | .cons k v tl, h, kv, hkv => by
    simp only [JsonObj.wfObj, Bool.and_eq_true] at h
    simp only [JsonObj.toList, List.mem_cons] at hkv
    rcases hkv with hkv | hkv
    · exact hkv ▸ h.1
    · exact wfObj_mem tl h.2 kv hkv

theorem keys_toList : ∀ (o : JsonObj), o.keys = o.toList.map Prod.fst
  | .nil => rfl
  | .cons k v tl => by simp [JsonObj.keys, JsonObj.toList, keys_toList tl]

theorem deepSortVals_toList : ∀ (o : JsonObj),
    (JsonObj.deepSortVals o).toList = o.toList.map (fun kv => (kv.1, Json.deepSort kv.2))
  | .nil => rfl
  | .cons k v tl => by
    simp [JsonObj.deepSortVals, JsonObj.toList, deepSortVals_toList tl]

theorem sizeObj_eq_pairsSize : ∀ (o : JsonObj), JsonObj.sizeObj o = pairsSize o.toList
  | .nil => rfl
  | .cons k v tl => by
    simp [JsonObj.sizeObj, JsonObj.toList, pairsSize, sizeObj_eq_pairsSize tl]

theorem pairsSize_perm {L1 L2 : List (String × Json)} (h : List.Perm L1 L2) :
    pairsSize L1 = pairsSize L2 := by
  induction h with
  | nil => rfl
  | cons x _ ih => simp [pairsSize, ih]
  | swap x y l => simp [pairsSize]; omega
  | trans _ _ ih1 ih2 => exact ih1.trans ih2

theorem joinSep_cons_exists (sep : List Char) (e : List Char) (es : List (List Char)) :
    ∃ T, joinSep sep (e :: es) = e ++ T := by
  cases es with
  | nil => exact ⟨[], (List.append_nil e).symm⟩
  | cons e2 es2 => exact ⟨sep ++ joinSep sep (e2 :: es2), by simp [joinSep, List.append_assoc]⟩

theorem JsonObj.ofList_toList : ∀ (o : JsonObj), JsonObj.ofList o.toList = o
  | .nil => rfl
  | .cons k v tl => by simp [JsonObj.toList, JsonObj.ofList, JsonObj.ofList_toList tl]

/-- dict assignment of a fresh key appends the binding at the end. -/
theorem setKey_append : ∀ (o : JsonObj) (k : String) (v : Json), k ∉ o.keys →
    o.setKey k v = JsonObj.ofList (o.toList ++ [(k, v)])
  | .nil, k, v, _ => rfl
  | .cons k0 v0 tl, k, v, h => by
    simp only [JsonObj.keys, List.mem_cons, not_or] at h
    simp only [JsonObj.setKey, JsonObj.toList, List.cons_append, JsonObj.ofList]
    rw [if_neg (fun hh => h.1 hh.symm), setKey_append tl k v h.2]
    rfl

/-- Building a dict by successive fresh-key assignments is conversion of
the association list. -/
theorem foldl_setKey_append :
    ∀ (L : List (String × Json)) (o : JsonObj),
      (o.keys ++ L.map Prod.fst).Nodup →
      L.foldl (fun o kv => o.setKey kv.1 kv.2) o = JsonObj.ofList (o.toList ++ L)
  | [], o, _ => by
    simp [List.foldl, JsonObj.ofList_toList]
  | kv :: L2, o, h => by
    have hk : kv.1 ∉ o.keys := by
      intro hmem
      have := (List.nodup_append.mp h).2.2
      exact this hmem (by simp)
    have h2 : ((JsonObj.ofList (o.toList ++ [kv])).keys ++ L2.map Prod.fst).Nodup := by
      rw [keys_toList, JsonObj.toList_ofList, List.map_append]
      have : (o.toList.map Prod.fst ++ ([kv].map Prod.fst ++ L2.map Prod.fst)).Nodup := by
        rw [← keys_toList]
        simpa using h
      simpa [List.append_assoc] using this
    have step : o.setKey kv.1 kv.2 = JsonObj.ofList (o.toList ++ [kv]) := by
      rw [setKey_append o kv.1 kv.2 hk]
    calc (kv :: L2).foldl (fun o kv => o.setKey kv.1 kv.2) o
        = L2.foldl (fun o kv => o.setKey kv.1 kv.2) (o.setKey kv.1 kv.2) := by
          simp [List.foldl]
      _ = L2.foldl (fun o kv => o.setKey kv.1 kv.2) (JsonObj.ofList (o.toList ++ [kv])) := by
          rw [step]
      _ = JsonObj.ofList ((JsonObj.ofList (o.toList ++ [kv])).toList ++ L2) :=
          foldl_setKey_append L2 _ h2
      _ = JsonObj.ofList (o.toList ++ kv :: L2) := by
          rw [JsonObj.toList_ofList]
          simp [List.append_assoc]

/-- Building a Python dict from pairs with pairwise distinct keys is plain
conversion of the association list. -/
theorem objFromPairs_eq_ofList (L : List (String × Json)) (h : (L.map Prod.fst).Nodup) :
    objFromPairs L = JsonObj.ofList L := by
  have := foldl_setKey_append L JsonObj.nil (by simpa [JsonObj.keys] using h)
  simpa [objFromPairs, JsonObj.toList] using this

/-- The serialization of a nonempty array, decomposed as the parser walks
it. -/
theorem dump_arr_cons (ind : Option Nat) (lvl : Nat) (y : Json) (ys : JsonList)
    (rest : List Char) :
    Json.dump ind lvl (Json.arr (JsonList.cons y ys)) ++ rest =
      '[' :: (sepPad ind lvl ++
        (joinSep (itemSep ind lvl)
            (JsonList.dumpItems ind (lvl + 1) (JsonList.cons y ys)) ++
          (closePad ind lvl ++ ']' :: rest))) := by
  cases ind <;>
    simp [Json.dump, wrapList, sepPad, closePad, List.append_assoc]

/-- The serialization of a nonempty dict, decomposed as the parser walks
it: the entries are the key-sorted association list, each serialized by
entryChars. -/
theorem dump_obj_cons (ind : Option Nat) (lvl : Nat) (k0 : String) (v0 : Json)
    (tl : JsonObj) (rest : List Char) :
    Json.dump ind lvl (Json.obj (JsonObj.cons k0 v0 tl)) ++ rest =
      '\x7b' :: (sepPad ind lvl ++
        (joinSep (itemSep ind lvl)
            ((sortByKey ((JsonObj.cons k0 v0 tl).toList)).map (fun kv =>
              entryChars ind (kv.1, Json.dump ind (lvl + 1) kv.2))) ++
          (closePad ind lvl ++ '\x7d' :: rest))) := by
  have hitems : (sortByKey (JsonObj.dumpEntries ind (lvl + 1) (JsonObj.cons k0 v0 tl))).map
      (entryChars ind) =
      (sortByKey ((JsonObj.cons k0 v0 tl).toList)).map (fun kv =>
        entryChars ind (kv.1, Json.dump ind (lvl + 1) kv.2)) := by
    rw [dumpEntries_eq_map_toList, sortByKey_map_keyPreserving (Json.dump ind (lvl + 1))]
    simp [List.map_map, Function.comp]
  cases ind <;>
    simp [Json.dump, wrapList, sepPad, closePad, List.append_assoc, hitems]

/-- Parsing inverts serialization on well-formed values: parsing a dumped
value yields its key-order normal form and consumes exactly the dumped
text. -/
theorem parsesBack_of_wf : ∀ (x : Json), Json.wf x = true → ParsesBack x := by
  intro x
  refine Json.inductionAux (fun x => Json.wf x = true → ParsesBack x) ?_ ?_ ?_ ?_ ?_ ?_ x
  · intro _; exact parsesBack_null
  · intro b _; exact parsesBack_bool b
  · intro n _; exact parsesBack_num n
  · intro s _; exact parsesBack_str s
  · intro xs hmemP hwf
    simp only [Json.wf] at hwf
    intro fuel hfuel ind lvl rest hrest
    cases xs with
    | nil =>
      cases fuel with
      | zero => simp only [Json.size, JsonList.sizeList] at hfuel; omega
      | succ f =>
        rw [show Json.dump ind lvl (Json.arr JsonList.nil) ++ rest =
          '[' :: ']' :: rest from rfl]
        simp only [parseValue]
        rw [skipWs_not_ws _ (by decide)]
        rfl
    | cons y ys =>
      cases fuel with
      | zero => simp only [Json.size, JsonList.sizeList] at hfuel; omega
      | succ f =>
        have hy : ParsesBack y :=
          hmemP y (by simp [JsonList.toList])
            (wfList_mem _ hwf y (by simp [JsonList.toList]))
        have hys : ∀ z ∈ ys.toList, ParsesBack z := fun z hz =>
          hmemP z (by simp [JsonList.toList, hz])
            (wfList_mem _ hwf z (by simp [JsonList.toList, hz]))
        have hsz : JsonList.sizeList (JsonList.cons y ys) ≤ f := by
          simp only [Json.size] at hfuel; omega
        rw [dump_arr_cons ind lvl y ys rest]
        simp only [parseValue]
        rw [skipWs_not_ws _ (by decide)]
        show (match skipWs (sepPad ind lvl ++
            (joinSep (itemSep ind lvl)
                (JsonList.dumpItems ind (lvl + 1) (JsonList.cons y ys)) ++
              (closePad ind lvl ++ ']' :: rest))) with
          | ']' :: r => some (Json.arr JsonList.nil, r)
          | _ =>
            (match parseElems f (sepPad ind lvl ++
                (joinSep (itemSep ind lvl)
                    (JsonList.dumpItems ind (lvl + 1) (JsonList.cons y ys)) ++
                  (closePad ind lvl ++ ']' :: rest))) with
             | some (vs, r) => some (Json.arr vs, r)
             | none => none)) =
          some (Json.deepSort (Json.arr (JsonList.cons y ys)), rest)
        obtain ⟨c0, cs0, hhead, hw0, hnb, _, _⟩ := dump_head_cons ind (lvl + 1) y
        obtain ⟨T, hT⟩ := joinSep_cons_exists (itemSep ind lvl)
          (Json.dump ind (lvl + 1) y) (JsonList.dumpItems ind (lvl + 1) ys)
        have hskip : skipWs (sepPad ind lvl ++
            (joinSep (itemSep ind lvl)
                (JsonList.dumpItems ind (lvl + 1) (JsonList.cons y ys)) ++
              (closePad ind lvl ++ ']' :: rest))) =
            c0 :: (cs0 ++ (T ++ (closePad ind lvl ++ ']' :: rest))) := by
          rw [skipWs_sepPad]
          rw [show JsonList.dumpItems ind (lvl + 1) (JsonList.cons y ys) =
            Json.dump ind (lvl + 1) y :: JsonList.dumpItems ind (lvl + 1) ys from rfl]
          rw [hT, hhead]
          simp only [List.cons_append, List.append_assoc]
          exact skipWs_not_ws _ hw0
        rw [hskip]
        split
        · rename_i r heq
          injection heq with h1 _
          exact absurd h1 (fun hc => hnb ▸ hc)
        · rw [parseElems_pad f (sepPad ind lvl) _ (skipWs_sepPad ind lvl _)]
          rw [← List.append_assoc]
          rw [parseElems_dump ind lvl ys y hy hys f hsz rest]
          rfl
  · intro kvs hmemP hwf
    simp only [Json.wf, Bool.and_eq_true, decide_eq_true_eq] at hwf
    intro fuel hfuel ind lvl rest hrest
    cases kvs with
    | nil =>
      cases fuel with
      | zero => simp only [Json.size, JsonObj.sizeObj] at hfuel; omega
      | succ f =>
        rw [show Json.dump ind lvl (Json.obj JsonObj.nil) ++ rest =
          '\x7b' :: '\x7d' :: rest from rfl]
        simp only [parseValue]
        rw [skipWs_not_ws _ (by decide)]
        rfl
    | cons k0 v0 tl =>
      cases fuel with
      | zero => simp only [Json.size, JsonObj.sizeObj] at hfuel; omega
      | succ f =>
        obtain ⟨hnodup, hvals⟩ := hwf
        obtain ⟨⟨k1, v1⟩, SL, hS⟩ :
            ∃ p1 SL, sortByKey ((JsonObj.cons k0 v0 tl).toList) = p1 :: SL := by
          cases hs : sortByKey ((JsonObj.cons k0 v0 tl).toList) with
          | nil =>
            have hp := sortByKey_perm ((JsonObj.cons k0 v0 tl).toList)
            rw [hs] at hp
            exact absurd hp.symm.eq_nil (List.cons_ne_nil _ _)
          | cons a l => exact ⟨a, l, rfl⟩
        have hSperm : List.Perm ((k1, v1) :: SL) ((JsonObj.cons k0 v0 tl).toList) :=
          hS ▸ sortByKey_perm _
        have hSmem : ∀ p ∈ (k1, v1) :: SL, ParsesBack p.2 := by
          intro p hp
          have hp2 : p ∈ (JsonObj.cons k0 v0 tl).toList := hSperm.subset hp
          exact hmemP p hp2 (wfObj_mem _ hvals p hp2)
        have hv1 : ParsesBack v1 := hSmem (k1, v1) (by simp)
        have hSL : ∀ p ∈ SL, ParsesBack p.2 := fun p hp => hSmem p (by simp [hp])
        have hfuelS : pairsSize ((k1, v1) :: SL) ≤ f := by
          have h1 : pairsSize ((k1, v1) :: SL) = JsonObj.sizeObj (JsonObj.cons k0 v0 tl) := by
            rw [sizeObj_eq_pairsSize]
            exact pairsSize_perm hSperm
          simp only [Json.size] at hfuel
          omega
        rw [dump_obj_cons ind lvl k0 v0 tl rest]
        simp only [parseValue]
        rw [skipWs_not_ws _ (by decide)]
        show (match skipWs (sepPad ind lvl ++
            (joinSep (itemSep ind lvl)
                ((sortByKey ((JsonObj.cons k0 v0 tl).toList)).map (fun kv =>
                  entryChars ind (kv.1, Json.dump ind (lvl + 1) kv.2))) ++
              (closePad ind lvl ++ '\x7d' :: rest))) with
          | '\x7d' :: r => some (Json.obj JsonObj.nil, r)
          | _ =>
            (match parseMembers f (sepPad ind lvl ++
                (joinSep (itemSep ind lvl)
                    ((sortByKey ((JsonObj.cons k0 v0 tl).toList)).map (fun kv =>
                      entryChars ind (kv.1, Json.dump ind (lvl + 1) kv.2))) ++
                  (closePad ind lvl ++ '\x7d' :: rest))) with
             | some (ps, r) => some (Json.obj (objFromPairs ps), r)
             | none => none)) =
          some (Json.deepSort (Json.obj (JsonObj.cons k0 v0 tl)), rest)
        obtain ⟨W, hW⟩ : ∃ W, entryChars ind (k1, Json.dump ind (lvl + 1) v1) =
          '"' :: W := ⟨_, rfl⟩
        obtain ⟨T, hT⟩ := joinSep_cons_exists (itemSep ind lvl)
          (entryChars ind (k1, Json.dump ind (lvl + 1) v1))
          (SL.map (fun kv => entryChars ind (kv.1, Json.dump ind (lvl + 1) kv.2)))
        have hskip : skipWs (sepPad ind lvl ++
            (joinSep (itemSep ind lvl)
                ((sortByKey ((JsonObj.cons k0 v0 tl).toList)).map (fun kv =>
                  entryChars ind (kv.1, Json.dump ind (lvl + 1) kv.2))) ++
              (closePad ind lvl ++ '\x7d' :: rest))) =
            '"' :: (W ++ (T ++ (closePad ind lvl ++ '\x7d' :: rest))) := by
          rw [skipWs_sepPad, hS, List.map_cons, hT, hW]
          simp only [List.cons_append, List.append_assoc]
          exact skipWs_not_ws _ (by decide)
        rw [hskip]
        split
        · rename_i r heq
          injection heq with h1 _
          exact absurd h1 (by decide)
        · rw [parseMembers_pad f (sepPad ind lvl) _ (skipWs_sepPad ind lvl _)]
          rw [← List.append_assoc]
          rw [hS, List.map_cons]
          rw [show (entryChars ind (k1, Json.dump ind (lvl + 1) v1) ::
              SL.map (fun kv => entryChars ind (kv.1, Json.dump ind (lvl + 1) kv.2))) =
            ((k1, v1) :: SL).map (fun kv =>
              entryChars ind (kv.1, Json.dump ind (lvl + 1) kv.2)) from rfl]
          rw [parseMembers_dump ind lvl SL k1 v1 hv1 hSL f hfuelS rest]
          show some (Json.obj (objFromPairs (((k1, v1) :: SL).map (fun kv =>
              (kv.1, Json.deepSort kv.2)))), rest) =
            some (Json.deepSort (Json.obj (JsonObj.cons k0 v0 tl)), rest)
          have hnd : ((((k1, v1) :: SL).map (fun kv =>
              (kv.1, Json.deepSort kv.2))).map Prod.fst).Nodup := by
            have hperm2 : List.Perm (((k1, v1) :: SL).map Prod.fst)
                (((JsonObj.cons k0 v0 tl).toList).map Prod.fst) := hSperm.map Prod.fst
            have hnd0 : (((JsonObj.cons k0 v0 tl).toList).map Prod.fst).Nodup := by
              rw [← keys_toList]; exact hnodup
            have hnd1 : (((k1, v1) :: SL).map Prod.fst).Nodup :=
              hperm2.nodup_iff.mpr hnd0
            simpa [List.map_map, Function.comp] using hnd1
          have hobjeq : objFromPairs (((k1, v1) :: SL).map (fun kv =>
              (kv.1, Json.deepSort kv.2))) =
              JsonObj.ofList (sortByKey
                ((JsonObj.deepSortVals (JsonObj.cons k0 v0 tl)).toList)) := by
            rw [deepSortVals_toList, sortByKey_map_keyPreserving Json.deepSort, hS]
            exact objFromPairs_eq_ofList _ hnd
          rw [hobjeq]
          rfl

/-- Charging one unit per separator, the items of a joined list are
accounted by its length. -/
theorem joinSep_charge (sep : List Char) (hs : 1 ≤ sep.length) :
    ∀ (items : List (List Char)) (e : List Char),
      ((e :: items).map (fun i => i.length + 1)).sum ≤ (joinSep sep (e :: items)).length + 1
  | [], e => by
    rw [show joinSep sep [e] = e from rfl]
    simp
  | e2 :: items2, e => by
    have ih := joinSep_charge sep hs items2 e2
    rw [show joinSep sep (e :: e2 :: items2) =
      e ++ sep ++ joinSep sep (e2 :: items2) from rfl]
    simp only [List.map_cons, List.sum_cons, List.length_append] at ih ⊢
    omega

theorem sizeList_le_itemsSum :
    ∀ (xs : JsonList) (ind : Option Nat) (lvl : Nat),
      (∀ x ∈ xs.toList, ∀ (ind : Option Nat) (lvl : Nat),
        Json.size x ≤ (Json.dump ind lvl x).length) →
      JsonList.sizeList xs ≤
        ((JsonList.dumpItems ind lvl xs).map (fun i => i.length + 1)).sum
  | .nil, ind, lvl, _ => by simp [JsonList.sizeList, JsonList.dumpItems]
  | .cons y ys, ind, lvl, h => by
    have hy := h y (by simp [JsonList.toList]) ind lvl
    have ih := sizeList_le_itemsSum ys ind lvl (fun z hz => h z (by simp [JsonList.toList, hz]))
    simp only [JsonList.sizeList, JsonList.dumpItems, List.map_cons, List.sum_cons]
    omega

theorem pairsSize_eq_sum (L : List (String × Json)) :
    pairsSize L = (L.map (fun kv => 1 + Json.size kv.2)).sum := by
  induction L with
  | nil => rfl
  | cons kv tl ih => simp [pairsSize, ih]

theorem entryChars_length_ge (ind : Option Nat) (kv : String × List Char) :
    kv.2.length + 1 ≤ (entryChars ind kv).length := by
  cases ind <;> simp [entryChars, List.length_append] <;> omega

theorem obj_items_eq (ind : Option Nat) (lvl : Nat) (kvs : JsonObj) :
    (sortByKey (JsonObj.dumpEntries ind lvl kvs)).map (entryChars ind) =
      (sortByKey (kvs.toList)).map (fun kv =>
        entryChars ind (kv.1, Json.dump ind lvl kv.2)) := by
  rw [dumpEntries_eq_map_toList, sortByKey_map_keyPreserving (Json.dump ind lvl)]
  simp [List.map_map, Function.comp]

theorem sizeObj_le_entriesSum (kvs : JsonObj) (ind : Option Nat) (lvl : Nat)
    (h : ∀ kv ∈ kvs.toList, ∀ (ind : Option Nat) (lvl : Nat),
      Json.size kv.2 ≤ (Json.dump ind lvl kv.2).length) :
    JsonObj.sizeObj kvs ≤
      (((sortByKey kvs.toList).map (fun kv =>
        entryChars ind (kv.1, Json.dump ind lvl kv.2))).map (fun i => i.length + 1)).sum := by
  have hperm : List.Perm (sortByKey kvs.toList) kvs.toList := sortByKey_perm _
  have h1 : JsonObj.sizeObj kvs = pairsSize (sortByKey kvs.toList) := by
    rw [sizeObj_eq_pairsSize]
    exact (pairsSize_perm hperm).symm
  rw [h1, pairsSize_eq_sum, List.map_map]
  refine List.sum_le_sum ?_
  intro kv hkv
  have hkv2 : kv ∈ kvs.toList := hperm.subset hkv
  have hd := h kv hkv2 ind lvl
  have he := entryChars_length_ge ind (kv.1, Json.dump ind lvl kv.2)
  simp only [Function.comp] at *
  omega

/-- A value never needs more fuel than the length of its serialization. -/
theorem size_le_dump : ∀ (x : Json), ∀ (ind : Option Nat) (lvl : Nat),
    Json.size x ≤ (Json.dump ind lvl x).length := by
  intro x
  refine Json.inductionAux
    (fun x => ∀ (ind : Option Nat) (lvl : Nat),
      Json.size x ≤ (Json.dump ind lvl x).length) ?_ ?_ ?_ ?_ ?_ ?_ x
  · intro ind lvl; simp [Json.dump, Json.size]
  · intro b ind lvl; cases b <;> simp [Json.dump, Json.size]
  · intro n ind lvl
    have hne : intRepr n ≠ [] := by
      cases n with
      | ofNat m => exact natRepr_ne_nil m
      | negSucc m => simp [intRepr]
    have : 0 < (intRepr n).length := List.length_pos.mpr hne
    simp only [Json.size, Json.dump]
    omega
  · intro s ind lvl
    simp [Json.dump, Json.size, List.length_append]
  · intro xs hmem ind lvl
    cases xs with
    | nil => cases ind <;> simp [Json.dump, Json.size, JsonList.sizeList]
    | cons y ys =>
      have hitems := sizeList_le_itemsSum (JsonList.cons y ys) ind (lvl + 1) hmem
      have hcharge := joinSep_charge (itemSep ind lvl)
        (by cases ind <;> simp [itemSep])
        (JsonList.dumpItems ind (lvl + 1) ys) (Json.dump ind (lvl + 1) y)
      rw [show JsonList.dumpItems ind (lvl + 1) (JsonList.cons y ys) =
        Json.dump ind (lvl + 1) y :: JsonList.dumpItems ind (lvl + 1) ys from rfl] at hitems
      rw [show Json.dump ind lvl (Json.arr (JsonList.cons y ys)) =
        wrapList '[' ']' ind lvl
          (Json.dump ind (lvl + 1) y :: JsonList.dumpItems ind (lvl + 1) ys) from rfl]
      simp only [Json.size]
      cases ind <;> simp only [wrapList, List.length_append, List.length_cons] <;> omega
  · intro kvs hmem ind lvl
    cases kvs with
    | nil => cases ind <;> simp [Json.dump, Json.size, JsonObj.sizeObj]
    | cons k0 v0 tl =>
      have hentries := sizeObj_le_entriesSum (JsonObj.cons k0 v0 tl) ind (lvl + 1) hmem
      obtain ⟨p1, SL, hS⟩ :
          ∃ p1 SL, sortByKey ((JsonObj.cons k0 v0 tl).toList) = p1 :: SL := by
        cases hs : sortByKey ((JsonObj.cons k0 v0 tl).toList) with
        | nil =>
          have hp := sortByKey_perm ((JsonObj.cons k0 v0 tl).toList)
          rw [hs] at hp
          exact absurd hp.symm.eq_nil (List.cons_ne_nil _ _)
        | cons a l => exact ⟨a, l, rfl⟩
      rw [hS, List.map_cons] at hentries
      have hcharge := joinSep_charge (itemSep ind lvl)
        (by cases ind <;> simp [itemSep])
        (SL.map (fun kv => entryChars ind (kv.1, Json.dump ind (lvl + 1) kv.2)))
        (entryChars ind (p1.1, Json.dump ind (lvl + 1) p1.2))
      rw [show Json.dump ind lvl (Json.obj (JsonObj.cons k0 v0 tl)) =
        wrapList '\x7b' '\x7d' ind lvl
          ((sortByKey (JsonObj.dumpEntries ind (lvl + 1) (JsonObj.cons k0 v0 tl))).map
            (entryChars ind)) from rfl]
      rw [obj_items_eq, hS, List.map_cons]
      simp only [Json.size]
      cases ind <;> simp only [wrapList, List.length_append, List.length_cons] <;> omega

/-- json.loads of a dumped well-formed value returns its key-order normal
form, whatever indent option produced it. -/
theorem loads_dump (x : Json) (hwf : Json.wf x = true) (ind : Option Nat) :
    loads (String.mk (Json.dump ind 0 x)) = some (Json.deepSort x) := by
  have hpb := parsesBack_of_wf x hwf
  have hlen := size_le_dump x ind 0
  simp only [loads]
  have h := hpb ((Json.dump ind 0 x).length + 1) (by omega) ind 0 [] (by rfl)
  rw [List.append_nil] at h
  rw [h]
  rfl

theorem map_id_of_mem {α : Type} (f : α → α) :
    ∀ (l : List α), (∀ a ∈ l, f a = a) → l.map f = l
  | [], _ => rfl
  | a :: tl, h => by
    simp only [List.map_cons]
    rw [h a (by simp), map_id_of_mem f tl (fun b hb => h b (by simp [hb]))]

theorem deepSortList_idem_aux :
    ∀ (xs : JsonList),
      (∀ x ∈ xs.toList, Json.deepSort (Json.deepSort x) = Json.deepSort x) →
      JsonList.deepSortList (JsonList.deepSortList xs) = JsonList.deepSortList xs
  | .nil, _ => rfl
  | .cons y ys, h => by
    simp only [JsonList.deepSortList]
    rw [h y (by simp [JsonList.toList]),
      deepSortList_idem_aux ys (fun z hz => h z (by simp [JsonList.toList, hz]))]

/-- The key-order normal form is idempotent. -/
theorem deepSort_idem : ∀ (x : Json), Json.deepSort (Json.deepSort x) = Json.deepSort x := by
  intro x
  refine Json.inductionAux (fun x => Json.deepSort (Json.deepSort x) = Json.deepSort x)
    ?_ ?_ ?_ ?_ ?_ ?_ x
  · rfl
  · intro b; rfl
  · intro n; rfl
  · intro s; rfl
  · intro xs hmem
    show Json.arr (JsonList.deepSortList (JsonList.deepSortList xs)) =
      Json.arr (JsonList.deepSortList xs)
    rw [deepSortList_idem_aux xs hmem]
  · intro kvs hmem
    show Json.obj (JsonObj.ofList (sortByKey
        ((JsonObj.deepSortVals (JsonObj.ofList (sortByKey
          ((JsonObj.deepSortVals kvs).toList)))).toList))) =
      Json.obj (JsonObj.ofList (sortByKey ((JsonObj.deepSortVals kvs).toList)))
    rw [deepSortVals_toList, JsonObj.toList_ofList]
    have hmapid : (sortByKey ((JsonObj.deepSortVals kvs).toList)).map
        (fun kv => (kv.1, Json.deepSort kv.2)) =
        sortByKey ((JsonObj.deepSortVals kvs).toList) := by
      apply map_id_of_mem
      intro kv hkv
      have hkv2 : kv ∈ (JsonObj.deepSortVals kvs).toList := (sortByKey_perm _).subset hkv
      rw [deepSortVals_toList] at hkv2
      obtain ⟨p, hp, hpe⟩ := List.mem_map.mp hkv2
      have hidem := hmem p hp
      rw [← hpe]
      show (p.1, Json.deepSort (Json.deepSort p.2)) = (p.1, Json.deepSort p.2)
      rw [hidem]
    rw [hmapid, sortByKey_idem]

/-- Claim C7: saving a ledger and constructing a new VectorState from the
saved file succeeds and yields a ledger whose docs mapping is equal, as a
Python dict (dict equality ignores key insertion order, formalized as
equality of key-order normal forms), to the original docs mapping — for
every ledger whose docs dict is well-formed JSON data (nested metadata of
any depth included). -/
theorem C7_save_load_round_trip (s : VectorState)
    (hwf : Json.wf (Json.obj s.docs) = true) :
    ∃ t : VectorState,
      VectorState.ofFileContent (VectorState.save s) = some t ∧
        Json.deepSort (Json.obj t.docs) = Json.deepSort (Json.obj s.docs) := by
  have hwfroot : Json.wf (VectorState.to_dict s) = true := by
    rw [show Json.wf (VectorState.to_dict s) =
      (decide ((["docs"] : List String).Nodup) &&
        (Json.wf (Json.obj s.docs) && true)) from rfl, hwf]
    decide
  have hld : loads (VectorState.save s) = some (Json.deepSort (VectorState.to_dict s)) :=
    loads_dump (VectorState.to_dict s) hwfroot (some 2)
  have hds : Json.deepSort (VectorState.to_dict s) =
      Json.obj (JsonObj.cons "docs"
        (Json.obj (JsonObj.ofList (sortByKey ((JsonObj.deepSortVals s.docs).toList))))
        JsonObj.nil) := rfl
  refine ⟨⟨JsonObj.ofList (sortByKey ((JsonObj.deepSortVals s.docs).toList))⟩, ?_, ?_⟩
  · simp only [VectorState.ofFileContent]
    rw [hld, hds]
    rfl
  · show Json.deepSort (Json.obj (JsonObj.ofList
        (sortByKey ((JsonObj.deepSortVals s.docs).toList)))) =
      Json.deepSort (Json.obj s.docs)
    exact deepSort_idem (Json.obj s.docs)

set_option maxRecDepth 10000 in
theorem C7_witness :
    Json.wf (Json.obj c7State.docs) = true ∧
      ∃ t : VectorState,
        VectorState.ofFileContent (VectorState.save c7State) = some t ∧
          Json.deepSort (Json.obj t.docs) = Json.deepSort (Json.obj c7State.docs) :=
  ⟨by rfl, C7_save_load_round_trip c7State (by rfl)⟩
